import Mathlib

/-!
Verification development for the alignment / ID-translation core of the
tr-text-fabric pipeline.

The Python sources embedded here (shallowly, as executable Lean functions):
  * scripts/phase2/p2_02_align_verses.py   (create_word_key, align_verse_words,
    together with Python's difflib.SequenceMatcher, which align_verse_words
    instantiates as SequenceMatcher(None, tr_keys, n1904_keys))
  * scripts/phase2/p2_04_full_alignment.py (normalize_book_name, run_full_alignment)
  * scripts/phase2/p2_05_build_id_map.py   (build_id_translation)
  * scripts/phase2/p2_06_transplant_syntax.py (transplant_syntax and the
    broken-parent-reference validation in main)
  * scripts/phase3/p3_01_analyze_gaps.py   (group_gaps_into_spans, categorize_span)

Modelling conventions:
  * A pandas DataFrame is a list of rows; a Python dict row is an association
    list with unique keys (lookup takes the first matching entry).
  * Python sets of indices are modeled by list membership; CPython's set
    iteration order is a deterministic function of the set's contents, and we
    fix a concrete enumeration (order of first appearance); none of the
    theorems below depends on that order.
  * Machine integers are Int / Nat (Python ints are unbounded, so no modular
    arithmetic is needed).
  * Unicode NFC normalization (unicodedata.normalize) is an external pure
    function on strings; it is a parameter `nfc` of the embedding and every
    theorem holds for an arbitrary `nfc`.
-/

namespace TrTextFabric

/-- A cell value of a corpus table: the columns handled by these scripts hold
strings (surface forms, feature tags, book names) or integers (identifiers,
chapters, verses, ranks). -/
inductive Val where
  | vStr (s : String)
  | vInt (n : Int)
deriving DecidableEq, Repr

instance : Inhabited Val := ⟨.vStr ""⟩

/-- Python truthiness of a cell value: `""` and `0` are falsy. -/
def Val.truthy : Val → Bool
  | .vStr s => s ≠ ""
  | .vInt n => n ≠ 0

/-- Python `str()` rendering of a cell value. -/
def Val.render : Val → String
  | .vStr s => s
  | .vInt n => toString n

/-- A word row as the scripts see it: a Python dict from column name to value. -/
abbrev WordRec := List (String × Val)

/-- `row.get(k)`: dict lookup, `none` when the key is absent. -/
def dictGet (row : WordRec) (k : String) : Option Val :=
  (row.find? (fun p => p.1 == k)).map Prod.snd

/-- `row.get(k, d)`: dict lookup with a default. -/
def dictGetD (row : WordRec) (k : String) (d : Val) : Val :=
  (dictGet row k).getD d

/-- `create_word_key` from p2_02_align_verses.py.  `nfc` abstracts the Unicode
NFC normalization done by `normalize_unicode` (external, pure).  The source
appends `normalize_unicode(val) if val else ""`; `normalize_unicode` itself
renders its argument with `str()` first, so the embedding renders and then
normalizes truthy values and emits `""` for falsy ones, exactly as the
source does. -/
def create_word_key (nfc : String → String) (row : WordRec) (match_criteria : List String) : String :=
  String.intercalate "|" (match_criteria.map (fun criterion =>
    let val := dictGetD row criterion (.vStr "")
    if val.truthy then nfc val.render else ""))

/-! ### difflib.SequenceMatcher(None, a, b)

Embedding of the parts of CPython's difflib used by align_verse_words:
find_longest_match and get_matching_blocks, with isjunk = None and
autojunk = True (the defaults used by the source). -/

/-- Ascending list of the positions of `x` in `b`: the value `b2j[x]` that
SequenceMatcher.__chain_b builds by a single pass over `b`. -/
def occIdxs [DecidableEq α] (b : List α) (x : α) : List Nat :=
  (List.range b.length).filter (fun j => decide (b[j]? = some x))

/-- `b2j` after the autojunk step of SequenceMatcher.__chain_b: with
isjunk = None nothing is junk, and when `len(b) >= 200` the "popular"
elements (more than `len(b) // 100 + 1` occurrences) are deleted from the
dict (they can still be matched by the extension loops below, just never
seed a match). -/
def b2j [DecidableEq α] (b : List α) (x : α) : List Nat :=
  let idxs := occIdxs b x
  if b.length ≥ 200 ∧ b.length / 100 + 1 < idxs.length then [] else idxs

/-- Inner loop of find_longest_match, over the candidate list `b2j[a[i]]`
(ascending).  `j < blo` is Python's `continue`, `bhi ≤ j` is Python's
`break` (sound because the candidate list ascends).  The dicts `j2len` and
`newj2len` are modeled as total functions with default 0, matching
`j2len.get(key, 0)`; Python's `j2len.get(j-1, 0)` at `j = 0` reads key `-1`,
never present, hence 0, which the `j = 0` test reproduces.  A best candidate
found at `(i, j)` with run length `k` starts at `(i-k+1, j-k+1)`; `k` never
exceeds `i+1` or `j+1` (a run ending at `(i, j)` is no longer than either
prefix), so the truncated subtractions equal Python's. -/
def innerLoop (blo bhi i : Nat) :
    List Nat → (Nat → Nat) → (Nat → Nat) → Nat × Nat × Nat →
    (Nat → Nat) × (Nat × Nat × Nat)
  | [], _, newj2len, best => (newj2len, best)
  | j :: js, j2len, newj2len, best =>
    if j < blo then innerLoop blo bhi i js j2len newj2len best
    else if bhi ≤ j then (newj2len, best)
    else
      let k := (if j = 0 then 0 else j2len (j - 1)) + 1
      let newj2len1 := fun x => if x = j then k else newj2len x
      let best1 := if best.2.2 < k then (i + 1 - k, j + 1 - k, k) else best
      innerLoop blo bhi i js j2len newj2len1 best1

/-- Outer loop of find_longest_match: `for i in range(alo, ahi)`, threading
the row dict (`j2len = newj2len`) and the best triple. -/
def outerLoop [Inhabited α] (a : List α) (bj : α → List Nat) (blo bhi : Nat) :
    List Nat → (Nat → Nat) → Nat × Nat × Nat → Nat × Nat × Nat
  | [], _, best => best
  | i :: rest, j2len, best =>
    let r := innerLoop blo bhi i (bj (a.getD i default)) j2len (fun _ => 0) best
    outerLoop a bj blo bhi rest r.1 r.2

/-- Downward extension loop of find_longest_match (`while besti > alo and
bestj > blo and a[besti-1] == b[bestj-1]`).  Each iteration decrements
`best.1`, and the guard requires `alo < best.1`, so fuel `best.1` is exact:
the guard fails before the fuel can run out. -/
def extendLo [DecidableEq α] [Inhabited α] (a b : List α) (alo blo : Nat) :
    Nat → Nat × Nat × Nat → Nat × Nat × Nat
  | 0, best => best
  | fuel + 1, best =>
    if alo < best.1 ∧ blo < best.2.1 ∧
        a.getD (best.1 - 1) default = b.getD (best.2.1 - 1) default then
      extendLo a b alo blo fuel (best.1 - 1, best.2.1 - 1, best.2.2 + 1)
    else best

/-- Upward extension loop of find_longest_match (`while besti+bestsize < ahi
and bestj+bestsize < bhi and a[besti+bestsize] == b[bestj+bestsize]`).
Each iteration increments the size while `best.1 + size < ahi`, so fuel
`ahi` is exact. -/
def extendHi [DecidableEq α] [Inhabited α] (a b : List α) (ahi bhi : Nat) :
    Nat → Nat × Nat × Nat → Nat × Nat × Nat
  | 0, best => best
  | fuel + 1, best =>
    if best.1 + best.2.2 < ahi ∧ best.2.1 + best.2.2 < bhi ∧
        a.getD (best.1 + best.2.2) default = b.getD (best.2.1 + best.2.2) default then
      extendHi a b ahi bhi fuel (best.1, best.2.1, best.2.2 + 1)
    else best

/-- SequenceMatcher.find_longest_match on the window
`a[alo:ahi] x b[blo:bhi]`.  isjunk is None, so `self.bjunk` is empty,
`isbjunk` is constantly false, and the two junk extension loops of the
source can never fire; they are therefore omitted.  The two non-junk
extension loops run in source order: lower first, then upper. -/
def find_longest_match [DecidableEq α] [Inhabited α] (a b : List α)
    (alo ahi blo bhi : Nat) : Nat × Nat × Nat :=
  let best0 := outerLoop a (b2j b) blo bhi (List.range' alo (ahi - alo)) (fun _ => 0) (alo, blo, 0)
  let best1 := extendLo a b alo blo best0.1 best0
  extendHi a b ahi bhi ahi best1

/-- The queue-driven divide and conquer of get_matching_blocks.  Python's
queue is used as a stack (`queue.pop()` pops the last element); the top of
the stack is the head of the list here, so the second pushed window (the
upper one) is popped first, as in the source.  `fuel` bounds the number of
iterations; get_matching_blocks passes `la + lb + 1`, which always
suffices: a popped window of combined size `s` (and weight `s + 1`) either
contributes nothing (size-0 match) or splits into sub-windows of combined
weight at most `s - 2k + 2 ≤ s` for a match of size `k ≥ 1`, so the total
weight of the queue, initially `la + lb + 1`, strictly decreases every
iteration. -/
def queueLoop [DecidableEq α] [Inhabited α] (a b : List α) :
    Nat → List (Nat × Nat × Nat × Nat) → List (Nat × Nat × Nat) → List (Nat × Nat × Nat)
  | 0, _, acc => acc
  | _ + 1, [], acc => acc
  | fuel + 1, (alo, ahi, blo, bhi) :: rest, acc =>
    let m := find_longest_match a b alo ahi blo bhi
    if m.2.2 = 0 then queueLoop a b fuel rest acc
    else
      let q1 := if alo < m.1 ∧ blo < m.2.1 then (alo, m.1, blo, m.2.1) :: rest else rest
      let q2 := if m.1 + m.2.2 < ahi ∧ m.2.1 + m.2.2 < bhi then
          (m.1 + m.2.2, ahi, m.2.1 + m.2.2, bhi) :: q1
        else q1
      queueLoop a b fuel q2 (acc ++ [m])

/-- Ascending lexicographic order on (i, j, size) triples: what
`matching_blocks.sort()` uses on Python tuples. -/
def blockLE (x y : Nat × Nat × Nat) : Prop :=
  x.1 < y.1 ∨ (x.1 = y.1 ∧ (x.2.1 < y.2.1 ∨ (x.2.1 = y.2.1 ∧ x.2.2 ≤ y.2.2)))

instance : DecidableRel blockLE := fun x y => by unfold blockLE; infer_instance

/-- The adjacent-block collapsing pass of get_matching_blocks, started from
the zero triple `(0, 0, 0)` exactly as in the source (`i1 = j1 = k1 = 0`);
a pending block is emitted only `if k1:`. -/
def collapseAdj : Nat × Nat × Nat → List (Nat × Nat × Nat) → List (Nat × Nat × Nat)
  | c, [] => if c.2.2 = 0 then [] else [c]
  | c, x :: xs =>
    if c.1 + c.2.2 = x.1 ∧ c.2.1 + c.2.2 = x.2.1 then
      collapseAdj (c.1, c.2.1, c.2.2 + x.2.2) xs
    else
      (if c.2.2 = 0 then [] else [c]) ++ collapseAdj x xs

/-- SequenceMatcher.get_matching_blocks: divide and conquer from the full
window, ascending sort, adjacent collapse, and the terminal dummy block
`(la, lb, 0)`.  Python's `list.sort` is a stable comparison sort; any
comparison sort computes the same list here because two distinct collected
blocks always differ in their first two components (their index ranges are
disjoint, see queueLoop_props below), so we use insertion sort, which the
kernel can evaluate. -/
def get_matching_blocks [DecidableEq α] [Inhabited α] (a b : List α) : List (Nat × Nat × Nat) :=
  let la := a.length
  let lb := b.length
  let blocks := queueLoop a b (la + lb + 1) [(0, la, 0, lb)] []
  collapseAdj (0, 0, 0) (blocks.insertionSort blockLE) ++ [(la, lb, 0)]

/-- The aligned index pairs contributed by one matching block: the source's
`for i in range(size): alignments.append((tr_start + i, n1904_start + i))`. -/
def blkPairs (m : Nat × Nat × Nat) : List (Nat × Nat) :=
  (List.range m.2.2).map (fun t => (m.1 + t, m.2.1 + t))

/-- align_verse_words from p2_02_align_verses.py.  `threshold` is accepted
and, as in the source, never read.  The Python sets tr_matched /
n1904_matched collect exactly the first (resp. second) components of the
emitted pairs, so membership in those projections models them. -/
def align_verse_words (nfc : String → String) (tr_words n1904_words : List WordRec)
    (match_criteria : List String) (threshold : Float := 0.95) :
    List (Nat × Nat) × List Nat × List Nat :=
  let tr_keys := tr_words.map (fun w => create_word_key nfc w match_criteria)
  let n1904_keys := n1904_words.map (fun w => create_word_key nfc w match_criteria)
  let alignments := (get_matching_blocks tr_keys n1904_keys).flatMap blkPairs
  let tr_gaps := (List.range tr_words.length).filter
    (fun i => decide (¬ i ∈ alignments.map Prod.fst))
  let n1904_gaps := (List.range n1904_words.length).filter
    (fun i => decide (¬ i ∈ alignments.map Prod.snd))
  (alignments, tr_gaps, n1904_gaps)

/-! ### scripts/phase2/p2_04_full_alignment.py -/

/-- pandas-style `unique()`: the distinct values of a sequence in order of
first appearance. -/
def uniqueFirstAux [DecidableEq β] (seen : List β) : List β → List β
  | [] => []
  | x :: xs =>
    if x ∈ seen then uniqueFirstAux seen xs
    else x :: uniqueFirstAux (seen ++ [x]) xs

/-- Distinct values in order of first appearance (pandas `Series.unique`). -/
def uniqueFirst [DecidableEq β] (l : List β) : List β :=
  uniqueFirstAux [] l

/-- BOOK_NAME_MAP from p2_04_full_alignment.py: TR book code (BLB format) to
N1904 book name, including the legacy aliases. -/
def BOOK_NAME_MAP : List (String × String) :=
  [("MAT", "Matthew"), ("MAR", "Mark"), ("LUK", "Luke"), ("JHN", "John"),
   ("ACT", "Acts"), ("ROM", "Romans"),
   ("1CO", "I_Corinthians"), ("2CO", "II_Corinthians"),
   ("GAL", "Galatians"), ("EPH", "Ephesians"), ("PHP", "Philippians"),
   ("COL", "Colossians"), ("1TH", "I_Thessalonians"), ("2TH", "II_Thessalonians"),
   ("1TI", "I_Timothy"), ("2TI", "II_Timothy"), ("TIT", "Titus"), ("PHM", "Philemon"),
   ("HEB", "Hebrews"), ("JAS", "James"),
   ("1PE", "I_Peter"), ("2PE", "II_Peter"),
   ("1JN", "I_John"), ("2JN", "II_John"), ("3JN", "III_John"),
   ("JUD", "Jude"), ("REV", "Revelation"),
   ("JOH", "John"), ("JAM", "James"),
   ("1JO", "I_John"), ("2JO", "II_John"), ("3JO", "III_John"),
   ("PA", "John"), ("ACT24", "Acts")]

/-- `normalize_book_name`: `BOOK_NAME_MAP.get(name, name)`.  The dict's keys
are strings, so any non-string book value is absent and maps to itself. -/
def normalize_book_name (name : Val) : Val :=
  match name with
  | .vStr s => .vStr (((BOOK_NAME_MAP.find? (fun p => p.1 == s)).map Prod.snd).getD s)
  | v => v

/-- `row[k]` for the row dicts of run_full_alignment.  The scripts only index
columns their input tables carry; a missing column is modeled as `""`. -/
def rowField (r : WordRec) (k : String) : Val :=
  dictGetD r k (.vStr "")

/-- One row of alignment_records (p2_04_full_alignment.py, lines 134-143). -/
structure AlignmentRecord where
  tr_word_id : Val
  n1904_node_id : Option Val
  book : Val
  chapter : Val
  verse : Val
  tr_word_rank : Val
  n1904_word_rank : Option Val
  tr_word : Val
deriving DecidableEq, Repr, Inhabited

/-- One row of gap_records (p2_04_full_alignment.py, lines 95-103 / 149-157 /
167-175). -/
structure GapRecord where
  word_id : Val
  book : Val
  chapter : Val
  verse : Val
  word_rank : Val
  word : Val
  gap_type : String
deriving DecidableEq, Repr, Inhabited

/-- Per-book statistics (p2_04_full_alignment.py, lines 179-185).  The
alignment rate is a Python float `alignments / tr_words * 100`; the division
is exact here (ℚ), which the claims below (presence and zero tests) do not
distinguish from float arithmetic. -/
structure BookStats where
  tr_words : Nat
  n1904_words : Nat
  alignments : Nat
  gaps : Nat
  alignment_rate : ℚ
deriving DecidableEq, Repr

/-- Overall statistics (p2_04_full_alignment.py, lines 192-198).  book_stats
is a dict keyed by TR book value, built in book iteration order. -/
structure AlignStats where
  total_tr_words : Nat
  total_aligned : Nat
  total_gaps : Nat
  alignment_rate : ℚ
  book_stats : List (Val × BookStats)
deriving DecidableEq, Repr

/-- Build a gap record from a TR word row (the dict literal repeated three
times in run_full_alignment, differing only in gap_type). -/
def gapOfRow (r : WordRec) (t : String) : GapRecord :=
  { word_id := rowField r "word_id", book := rowField r "book",
    chapter := rowField r "chapter", verse := rowField r "verse",
    word_rank := rowField r "word_rank", word := rowField r "word",
    gap_type := t }

/-- Build an alignment record from an aligned index pair (lines 131-143).
The indices produced by align_verse_words are always in range (proved
below); `getD` with an empty row is the total rendering of `tr_verse[tr_idx]`. -/
def alignRecOfPair (tr_verse n1904_verse : List WordRec) (p : Nat × Nat) : AlignmentRecord :=
  let tr_word := tr_verse.getD p.1 []
  let n1904_word := n1904_verse.getD p.2 []
  { tr_word_id := rowField tr_word "word_id",
    n1904_node_id := dictGet n1904_word "node_id",
    book := rowField tr_word "book",
    chapter := rowField tr_word "chapter",
    verse := rowField tr_word "verse",
    tr_word_rank := rowField tr_word "word_rank",
    n1904_word_rank := dictGet n1904_word "word_rank",
    tr_word := rowField tr_word "word" }

/-- Processing of one common (chapter, verse) pair inside run_full_alignment:
filter both book tables to the verse, align, and emit alignment records and
"unmatched" gap records.  The N1904 gap indices are computed by the source
but never recorded, as here. -/
def processVerse (nfc : String → String) (match_criteria : List String)
    (tr_book_df n1904_book_df : List WordRec) (cv : Val × Val) :
    List AlignmentRecord × List GapRecord :=
  let tr_verse := tr_book_df.filter
    (fun r => decide (rowField r "chapter" = cv.1 ∧ rowField r "verse" = cv.2))
  let n1904_verse := n1904_book_df.filter
    (fun r => decide (rowField r "chapter" = cv.1 ∧ rowField r "verse" = cv.2))
  let res := align_verse_words nfc tr_verse n1904_verse match_criteria
  (res.1.map (alignRecOfPair tr_verse n1904_verse),
   res.2.1.map (fun i => gapOfRow (tr_verse.getD i []) "unmatched"))

/-- The verse-level part of one book iteration of run_full_alignment
(lines 106-185), reached when the N1904 book table is nonempty.  CPython
iterates the sets `common_verses` and `tr_only_verses` in an order that is
an opaque but deterministic function of their contents; the embedding fixes
first-appearance order, and no theorem below depends on the choice. -/
def processBookPresent (nfc : String → String) (match_criteria : List String)
    (tr_book_df n1904_book_df : List WordRec) (tr_book : Val) :
    List AlignmentRecord × List GapRecord × Option (Val × BookStats) :=
  let tr_verses := tr_book_df.map (fun r => (rowField r "chapter", rowField r "verse"))
    let n1904_verses := n1904_book_df.map (fun r => (rowField r "chapter", rowField r "verse"))
    let common_verses := uniqueFirst (tr_verses.filter (fun cv => decide (cv ∈ n1904_verses)))
    let tr_only_verses := uniqueFirst (tr_verses.filter (fun cv => decide (¬ cv ∈ n1904_verses)))
    let per_verse := common_verses.map (processVerse nfc match_criteria tr_book_df n1904_book_df)
    let aligns := per_verse.flatMap Prod.fst
    let verse_gaps := per_verse.flatMap Prod.snd
    let tr_only_gaps := tr_only_verses.flatMap (fun cv =>
      (tr_book_df.filter
        (fun r => decide (rowField r "chapter" = cv.1 ∧ rowField r "verse" = cv.2))).map
        (fun r => gapOfRow r "tr_only_verse"))
    let book_alignments := aligns.length
    let book_tr_gaps := verse_gaps.length + tr_only_gaps.length
    (aligns, verse_gaps ++ tr_only_gaps,
     some (tr_book,
       { tr_words := tr_book_df.length,
         n1904_words := n1904_book_df.length,
         alignments := book_alignments,
         gaps := book_tr_gaps,
         alignment_rate :=
           if 0 < tr_book_df.length then
             (book_alignments : ℚ) / (tr_book_df.length : ℚ) * 100
           else 0 }))

/-- One iteration of the book loop of run_full_alignment (lines 84-185):
either the whole-book gap branch (no N1904 data, `continue` — note that the
`continue` also skips the book_stats assignment, so a book without N1904
data gets no book_stats entry), or the verse-level processing. -/
def processBook (nfc : String → String) (match_criteria : List String)
    (n1904_df : List WordRec) (tr_df : List WordRec) (tr_book : Val) :
    List AlignmentRecord × List GapRecord × Option (Val × BookStats) :=
  let tr_book_df := tr_df.filter (fun r => decide (rowField r "book" = tr_book))
  let n1904_book := normalize_book_name tr_book
  let n1904_book_df := n1904_df.filter (fun r => decide (rowField r "book" = n1904_book))
  if n1904_book_df.length = 0 then
    ([], tr_book_df.map (fun r => gapOfRow r "no_n1904_book"), none)
  else
    processBookPresent nfc match_criteria tr_book_df n1904_book_df tr_book

/-- run_full_alignment from p2_04_full_alignment.py.  The `book_normalized`
column added at the top of the source is never read afterwards (line 85 uses
`normalize_book_name(tr_book)` directly) and is not materialized here. -/
def run_full_alignment (nfc : String → String) (tr_df n1904_df : List WordRec)
    (match_criteria : List String) :
    List AlignmentRecord × List GapRecord × AlignStats :=
  let tr_books := uniqueFirst (tr_df.map (fun r => rowField r "book"))
  let per_book := tr_books.map (processBook nfc match_criteria n1904_df tr_df)
  let alignment_records := per_book.flatMap (fun x => x.1)
  let gap_records := per_book.flatMap (fun x => x.2.1)
  let book_stats := per_book.filterMap (fun x => x.2.2)
  (alignment_records, gap_records,
   { total_tr_words := tr_df.length,
     total_aligned := alignment_records.length,
     total_gaps := gap_records.length,
     alignment_rate :=
       if 0 < tr_df.length then
         (alignment_records.length : ℚ) / (tr_df.length : ℚ) * 100
       else 0,
     book_stats := book_stats })

/-! ### scripts/phase2/p2_05_build_id_map.py -/

/-- One row of the alignment_map table as read by p2_05 and p2_06 (only the
two id columns are used). -/
structure IdAlignRow where
  tr_word_id : Int
  n1904_node_id : Int
deriving DecidableEq, Repr, Inhabited

/-- The three columns of the N1904 table used by build_id_translation; the
container columns may be null (pandas NaN, dropped by `dropna()`). -/
structure N1904Syn where
  node_id : Int
  clause_id : Option Int
  phrase_id : Option Int
deriving DecidableEq, Repr, Inhabited

/-- One row of the id_translation table.  The final
`astype("Int64")` of the source is the identity on these integer values. -/
structure IdMapRow where
  n1904_id : Int
  tr_id : Int
  node_type : String
deriving DecidableEq, Repr, Inhabited

/-- The left merge of alignment_df with the N1904 container columns
(p2_05_build_id_map.py, lines 55-60): each alignment row is paired with the
container ids of every N1904 row whose node_id matches (in table order);
a row with no match survives with null containers, as in `how="left"`. -/
def mergeContainers (alignment_df : List IdAlignRow) (n1904_df : List N1904Syn) :
    List (IdAlignRow × Option Int × Option Int) :=
  alignment_df.flatMap (fun a =>
    let ms := n1904_df.filter (fun m => decide (m.node_id = a.n1904_node_id))
    if ms.length = 0 then [(a, none, none)]
    else ms.map (fun m => (a, m.clause_id, m.phrase_id)))

/-- `aligned_with_containers["clause_id"].dropna().unique()`. -/
def uniqueClauses (alignment_df : List IdAlignRow) (n1904_df : List N1904Syn) : List Int :=
  uniqueFirst ((mergeContainers alignment_df n1904_df).filterMap (fun x => x.2.1))

/-- `aligned_with_containers["phrase_id"].dropna().unique()`. -/
def uniquePhrases (alignment_df : List IdAlignRow) (n1904_df : List N1904Syn) : List Int :=
  uniqueFirst ((mergeContainers alignment_df n1904_df).filterMap (fun x => x.2.2))

/-- build_id_translation from p2_05_build_id_map.py: word-level mappings from
the alignment table, then clause ids minted from 1000000 upward and phrase
ids minted from 2000000 upward, one per distinct container id in order of
first appearance, concatenated in that fixed order. -/
def build_id_translation (alignment_df : List IdAlignRow) (n1904_df : List N1904Syn) :
    List IdMapRow :=
  let word_map : List IdMapRow := alignment_df.map (fun a =>
    { n1904_id := a.n1904_node_id, tr_id := a.tr_word_id, node_type := "word" })
  let clause_map : List IdMapRow := (uniqueClauses alignment_df n1904_df).enum.map (fun p =>
    { n1904_id := p.2, tr_id := 1000000 + (p.1 : Int), node_type := "clause" })
  let phrase_map : List IdMapRow := (uniquePhrases alignment_df n1904_df).enum.map (fun p =>
    { n1904_id := p.2, tr_id := 2000000 + (p.1 : Int), node_type := "phrase" })
  word_map ++ clause_map ++ phrase_map

/-! ### scripts/phase3/p3_01_analyze_gaps.py -/

/-- One row of gaps.csv as read by p3_01 (columns written by p2_04; the csv
reader parses the id, chapter, verse and rank columns as integers). -/
structure GapRow where
  word_id : Int
  book : String
  chapter : Int
  verse : Int
  word_rank : Int
  word : String
  gap_type : String
deriving DecidableEq, Repr, Inhabited

/-- Kernel-reducible decidability of the lexicographic string order (the
order itself is unchanged; the core library's byte-level instance does not
evaluate inside the kernel). -/
def strLtDec (a b : String) : Decidable (a < b) :=
  decidable_of_iff (a.toList < b.toList) String.lt_iff_toList_lt.symm

/-- The sort key of `gaps_df.sort_values(["book", "chapter", "verse",
"word_rank"])`: ascending lexicographic order on the four columns. -/
def gapLE (g h : GapRow) : Prop :=
  g.book < h.book ∨ (g.book = h.book ∧
    (g.chapter < h.chapter ∨ (g.chapter = h.chapter ∧
      (g.verse < h.verse ∨ (g.verse = h.verse ∧ g.word_rank ≤ h.word_rank)))))

instance : DecidableRel gapLE := fun g h =>
  have : Decidable (g.book < h.book) := strLtDec g.book h.book
  by unfold gapLE; infer_instance

/-- The `current_span` dict of group_gaps_into_spans. -/
structure CurSpan where
  book : String
  chapter : Int
  verse : Int
  start_word_rank : Int
  end_word_rank : Int
  word_ids : List Int
  words : List String
  word_count : Nat
  gap_type : String
deriving DecidableEq, Repr, Inhabited

/-- Opening a new span from a gap row (p3_01_analyze_gaps.py, lines 81-91). -/
def newSpan (g : GapRow) : CurSpan :=
  { book := g.book, chapter := g.chapter, verse := g.verse,
    start_word_rank := g.word_rank, end_word_rank := g.word_rank,
    word_ids := [g.word_id], words := [g.word], word_count := 1,
    gap_type := g.gap_type }

/-- The continuation test of group_gaps_into_spans (lines 65-69): the gap
shares (book, chapter, verse) with the current span and its rank is the
span's last rank plus one. -/
def continuesSpan (cs : CurSpan) (g : GapRow) : Prop :=
  cs.book = g.book ∧ cs.chapter = g.chapter ∧ cs.verse = g.verse ∧
    g.word_rank = cs.end_word_rank + 1

instance (cs : CurSpan) (g : GapRow) : Decidable (continuesSpan cs g) := by
  unfold continuesSpan; infer_instance

/-- Extending the current span (lines 70-74). -/
def extendSpan (cs : CurSpan) (g : GapRow) : CurSpan :=
  { cs with
    end_word_rank := g.word_rank
    word_ids := cs.word_ids ++ [g.word_id]
    words := cs.words ++ [g.word]
    word_count := cs.word_count + 1 }

/-- The main loop of group_gaps_into_spans over the sorted gap rows,
including the final `if current_span is not None: spans.append(...)`. -/
def groupLoop : List GapRow → Option CurSpan → List CurSpan → List CurSpan
  | [], none, spans => spans
  | [], some cs, spans => spans ++ [cs]
  | g :: rest, none, spans => groupLoop rest (some (newSpan g)) spans
  | g :: rest, some cs, spans =>
    if continuesSpan cs g then groupLoop rest (some (extendSpan cs g)) spans
    else groupLoop rest (some (newSpan g)) (spans ++ [cs])

/-- categorize_span from p3_01_analyze_gaps.py. -/
def categorize_span (cs : CurSpan) : String :=
  if cs.gap_type = "tr_only_verse" then "full_verse"
  else if cs.word_count = 1 then "single_word"
  else if cs.word_count ≤ 5 then "short_phrase"
  else "long_phrase"

/-- One row of the gap_spans output table (lines 98-112). -/
structure SpanRec where
  span_id : Nat
  book : String
  chapter : Int
  verse : Int
  start_word_rank : Int
  end_word_rank : Int
  word_count : Nat
  text : String
  word_ids : List Int
  gap_type : String
  category : String
deriving DecidableEq, Repr, Inhabited

/-- The span_records entry for the i-th collected span (0-based `enumerate`,
1-based span_id). -/
def spanRecOf (p : Nat × CurSpan) : SpanRec :=
  { span_id := p.1 + 1, book := p.2.book, chapter := p.2.chapter,
    verse := p.2.verse, start_word_rank := p.2.start_word_rank,
    end_word_rank := p.2.end_word_rank, word_count := p.2.word_count,
    text := String.intercalate " " p.2.words,
    word_ids := p.2.word_ids, gap_type := p.2.gap_type,
    category := categorize_span p.2 }

/-- group_gaps_into_spans from p3_01_analyze_gaps.py.  The `tr_lookup` dict
built from tr_df at line 50 is never read afterwards, so tr_df is unused,
as in the source.  pandas' default sort is an unstable comparison sort; it
agrees with insertion sort except on rows tied on all four key columns,
whose relative order no claim depends on. -/
def group_gaps_into_spans (gaps_df : List GapRow) (tr_df : List WordRec) : List SpanRec :=
  let gaps_sorted := gaps_df.insertionSort gapLE
  let spans := groupLoop gaps_sorted none []
  spans.enum.map spanRecOf

/-- Spec-side definition for the refinement statement of the span-contiguity
claim, following the spec's words: walking the sorted gaps, "a Gap extends
the current span iff it shares (book, chapter, verse) with the current span
and its rank equals the current span's last rank + 1".  Between consecutive
rows of one chunk this is exactly `chunkRel`. -/
def chunkRel (g h : GapRow) : Prop :=
  g.book = h.book ∧ g.chapter = h.chapter ∧ g.verse = h.verse ∧
    h.word_rank = g.word_rank + 1

instance : DecidableRel chunkRel := fun g h => by unfold chunkRel; infer_instance

/-- Maximal runs of chunkRel-consecutive rows (spec-side). -/
def specChunksAux (cur : List GapRow) (last : GapRow) : List GapRow → List (List GapRow)
  | [] => [cur]
  | g :: rest =>
    if chunkRel last g then specChunksAux (cur ++ [g]) g rest
    else cur :: specChunksAux [g] g rest

/-- Spec-side grouping of a gap list into maximal contiguous runs. -/
def specChunks : List GapRow → List (List GapRow)
  | [] => []
  | g :: rest => specChunksAux [g] g rest

/-- Spec-side span record built directly from a chunk: location and gap kind
from the first row, end rank from the last row, members in order. -/
def specSpanOf (idx : Nat) (c : List GapRow) : SpanRec :=
  match c with
  | [] => default
  | g :: cs =>
    { span_id := idx + 1, book := g.book, chapter := g.chapter, verse := g.verse,
      start_word_rank := g.word_rank,
      end_word_rank := (cs.getLastD g).word_rank,
      word_count := c.length,
      text := String.intercalate " " (c.map (fun x => x.word)),
      word_ids := c.map (fun x => x.word_id),
      gap_type := g.gap_type,
      category :=
        if g.gap_type = "tr_only_verse" then "full_verse"
        else if c.length = 1 then "single_word"
        else if c.length ≤ 5 then "short_phrase"
        else "long_phrase" }

/-- The current-span value that the groupLoop fold builds from one chunk of
consecutive gap rows (used to relate groupLoop to specChunks). -/
def chunkSpan : List GapRow → CurSpan
  | [] => default
  | g :: rest => rest.foldl extendSpan (newSpan g)

/-! ### scripts/phase2/p2_06_transplant_syntax.py -/

/-- One row of tr_words.parquet as used by p2_06: the identifying columns
plus any pre-existing annotation columns (`extra`, cells possibly null). -/
structure TrWord where
  word_id : Int
  word : String
  book : String
  chapter : Int
  verse : Int
  word_rank : Int
  extra : List (String × Option Val)
deriving DecidableEq, Repr, Inhabited

/-- One row of n1904_words.parquet as used by transplant_syntax: the node id
and the remaining columns as a dict (`feat in n1904_word` is key presence;
a present key may still hold a null value). -/
structure N1904Full where
  node_id : Int
  feats : List (String × Option Val)
deriving DecidableEq, Repr, Inhabited

/-- One row of the transplanted output table: the TR columns, the twelve
syntax feature columns, and the two status columns added by the script. -/
structure TransRow where
  word_id : Int
  word : String
  book : String
  chapter : Int
  verse : Int
  word_rank : Int
  extra : List (String × Option Val)
  feats : List (String × Option Val)
  aligned : Bool
  n1904_node_id : Option Int
deriving DecidableEq, Repr, Inhabited

/-- The syntax_features list of transplant_syntax (p2_06, lines 45-46). -/
def syn_features : List String :=
  ["lemma", "sp", "case", "tense", "voice", "mood",
   "function", "role", "parent", "clause_id", "phrase_id", "gloss"]

/-- `df.set_index(k).to_dict()`-style lookup: pandas keeps the last of
duplicate index values, so lookup returns the value of the last matching
row. -/
def lastLookup (l : List (Int × β)) (k : Int) : Option β :=
  (l.reverse.find? (fun p => decide (p.1 = k))).map Prod.snd

/-- Association-list lookup for row cells (dict keys unique, first match). -/
def assocFind (l : List (String × Option Val)) (k : String) : Option (Option Val) :=
  (l.find? (fun p => p.1 == k)).map Prod.snd

/-- The initialization loop of transplant_syntax (lines 52-54): each syntax
feature column the TR table lacks is created filled with None; a
pre-existing column keeps its values.  Column presence is a table-level
fact in pandas and rows are uniform, so it is modeled per row by key
presence in the row's cells. -/
def initFeats (r : TrWord) : List (String × Option Val) :=
  syn_features.map (fun f => (f, (assocFind r.extra f).getD none))

/-- `id_trans_lookup.get(value, value)`: the dict's keys are integers, so a
non-integer value is never found and kept unchanged. -/
def translateVal (tLook : Int → Option Int) (v : Val) : Val :=
  match v with
  | .vInt n => .vInt ((tLook n).getD n)
  | v => v

/-- The per-row body of the transplant loop (p2_06, lines 72-96). -/
def transplantRow (aLook : Int → Option Int) (nLook : Int → Option N1904Full)
    (tLook : Int → Option Int) (r : TrWord) : TransRow :=
  let base : TransRow :=
    { word_id := r.word_id, word := r.word, book := r.book,
      chapter := r.chapter, verse := r.verse, word_rank := r.word_rank,
      extra := r.extra, feats := initFeats r, aligned := false,
      n1904_node_id := none }
  match aLook r.word_id with
  | none => base
  | some nid =>
    match nLook nid with
    | none => base
    | some nw =>
      let feats := syn_features.map (fun f =>
        match assocFind nw.feats f with
        | none => (f, (assocFind r.extra f).getD none)
        | some v =>
          let v1 :=
            if f = "parent" ∧ v ≠ none then v.map (translateVal tLook)
            else if (f = "clause_id" ∨ f = "phrase_id") ∧ v ≠ none then
              v.map (translateVal tLook)
            else v
          (f, v1))
      { base with feats := feats, aligned := true, n1904_node_id := some nid }

/-- transplant_syntax from p2_06_transplant_syntax.py (the name is shortened
here).  `config` is accepted and, as in the source, never read inside the
function. -/
def transplant_syn (tr_df : List TrWord) (n1904_df : List N1904Full)
    (alignment_df : List IdAlignRow) (id_translation_df : List IdMapRow)
    (config : List (String × Val)) : List TransRow :=
  let aLook := lastLookup (alignment_df.map (fun a => (a.tr_word_id, a.n1904_node_id)))
  let nLook := lastLookup (n1904_df.map (fun m => (m.node_id, m)))
  let tLook := lastLookup (id_translation_df.map (fun x => (x.n1904_id, x.tr_id)))
  tr_df.map (transplantRow aLook nLook tLook)

/-- The valid-id set of the validation step in p2_06's main (lines 145-148):
all output word_ids plus the assigned ids of the non-word rows of the id
translation table. -/
def validIds (result : List TransRow) (id_translation_df : List IdMapRow) : List Int :=
  result.map (fun r => r.word_id) ++
    (id_translation_df.filter (fun x => decide (x.node_type ≠ "word"))).map (fun x => x.tr_id)

/-- The per-value test of the validation loop (line 152): `parent_id not in
valid_ids and parent_id != 0`.  A non-integer value is not a member of the
integer set and differs from 0, hence counts. -/
def brokenParentCheck (valid : List Int) (p : Val) : Bool :=
  match p with
  | .vInt n => decide (¬ n ∈ valid) && decide (n ≠ 0)
  | .vStr _ => true

/-- The broken-reference count of p2_06's main (lines 150-153): iterate the
non-null values of the parent column only, incrementing for each value that
passes brokenParentCheck. -/
def count_broken_refs (result : List TransRow) (id_translation_df : List IdMapRow) : Nat :=
  let valid := validIds result id_translation_df
  (result.filterMap (fun r => (assocFind r.feats "parent").getD none)).foldl
    (fun acc p => if brokenParentCheck valid p then acc + 1 else acc) 0

/-- The tail of p2_06's main after loading: transplant, count broken parent
references (reported as a warning only), save, return True.  The Bool is
main's return value: the run completes successfully for any count. -/
def transplant_and_validate (tr_df : List TrWord) (n1904_df : List N1904Full)
    (alignment_df : List IdAlignRow) (id_translation_df : List IdMapRow)
    (config : List (String × Val)) : List TransRow × Nat × Bool :=
  let result := transplant_syn tr_df n1904_df alignment_df id_translation_df config
  (result, count_broken_refs result id_translation_df, true)

/-- Spec-side count for the validation claim, following the claim's words:
over every stored hierarchical pointer field (parent, clause_id and
phrase_id) of every word, count the non-null pointers that resolve neither
to a known source word_id nor to an assigned_id of the ID-mapping table. -/
def specDanglingPointers (result : List TransRow) (id_translation_df : List IdMapRow) : Nat :=
  let known := result.map (fun r => r.word_id) ++ id_translation_df.map (fun x => x.tr_id)
  (["parent", "clause_id", "phrase_id"].flatMap (fun f =>
    result.filterMap (fun r => (assocFind r.feats f).getD none))).countP
    (fun p => match p with
      | .vInt n => decide (¬ n ∈ known)
      | .vStr _ => true)

/-! ### Invariants used by the SequenceMatcher proofs -/

/-- Window in the divide-and-conquer queue: (alo, ahi, blo, bhi). -/
abbrev Win := Nat × Nat × Nat × Nat

/-- Matching block: (i, j, size). -/
abbrev Blk := Nat × Nat × Nat

/-- Invariant of the best triple maintained by find_longest_match within the
window [alo, ahi) x [blo, bhi): a size-0 best is still the initial triple,
and a positive best lies inside the window. -/
def BestInv (alo ahi blo bhi : Nat) (best : Blk) : Prop :=
  (best.2.2 = 0 → best = (alo, blo, 0)) ∧
  (0 < best.2.2 →
    alo ≤ best.1 ∧ best.1 + best.2.2 ≤ ahi ∧ blo ≤ best.2.1 ∧ best.2.1 + best.2.2 ≤ bhi)

/-- A block lies inside a window. -/
def BlockIn (w : Win) (m : Blk) : Prop :=
  w.1 ≤ m.1 ∧ m.1 + m.2.2 ≤ w.2.1 ∧ w.2.2.1 ≤ m.2.1 ∧ m.2.1 + m.2.2 ≤ w.2.2.2

/-- Two windows are separated: one lies entirely below-left of the other on
both axes. -/
def WSep (w1 w2 : Win) : Prop :=
  (w1.2.1 ≤ w2.1 ∧ w1.2.2.2 ≤ w2.2.2.1) ∨ (w2.2.1 ≤ w1.1 ∧ w2.2.2.2 ≤ w1.2.2.1)

/-- Two blocks are separated (no crossing, no overlap). -/
def BSep (x y : Blk) : Prop :=
  (x.1 + x.2.2 ≤ y.1 ∧ x.2.1 + x.2.2 ≤ y.2.1) ∨
  (y.1 + y.2.2 ≤ x.1 ∧ y.2.1 + y.2.2 ≤ x.2.1)

/-- A block is separated from a window. -/
def BWSep (m : Blk) (w : Win) : Prop :=
  (m.1 + m.2.2 ≤ w.1 ∧ m.2.1 + m.2.2 ≤ w.2.2.1) ∨ (w.2.1 ≤ m.1 ∧ w.2.2.2 ≤ m.2.1)

/-- Invariant of the queueLoop state: windows are within bounds and pairwise
separated, collected blocks are positive, within bounds, separated from
every pending window and pairwise separated. -/
def QInv (la lb : Nat) (queue : List Win) (acc : List Blk) : Prop :=
  (∀ w ∈ queue, w.2.1 ≤ la ∧ w.2.2.2 ≤ lb) ∧
  List.Pairwise WSep queue ∧
  (∀ m ∈ acc, 0 < m.2.2 ∧ m.1 + m.2.2 ≤ la ∧ m.2.1 + m.2.2 ≤ lb) ∧
  (∀ m ∈ acc, ∀ w ∈ queue, BWSep m w) ∧
  List.Pairwise BSep acc

/-! ### Proofs: find_longest_match stays inside its window -/

theorem bestInv_mk (alo ahi blo bhi x y k : Nat) (hk : 0 < k)
    (h1 : alo ≤ x) (h2 : x + k ≤ ahi) (h3 : blo ≤ y) (h4 : y + k ≤ bhi) :
    BestInv alo ahi blo bhi (x, y, k) :=
  ⟨fun h0 => absurd (show k = 0 from h0) (by omega), fun _ => ⟨h1, h2, h3, h4⟩⟩

theorem innerLoop_inv (blo bhi i alo ahi : Nat) (hi1 : alo ≤ i) (hi2 : i < ahi) :
    ∀ (js : List Nat) (j2len newj2len : Nat → Nat) (best : Blk),
      (∀ x, j2len x ≤ i - alo) →
      (∀ x, j2len x ≤ x + 1 - blo) →
      (∀ x, newj2len x ≤ i + 1 - alo) →
      (∀ x, newj2len x ≤ x + 1 - blo) →
      BestInv alo ahi blo bhi best →
      (∀ x, (innerLoop blo bhi i js j2len newj2len best).1 x ≤ i + 1 - alo) ∧
      (∀ x, (innerLoop blo bhi i js j2len newj2len best).1 x ≤ x + 1 - blo) ∧
      BestInv alo ahi blo bhi (innerLoop blo bhi i js j2len newj2len best).2 := by
  intro js
  induction js with
  | nil =>
    intro j2len newj2len best _ _ h3 h4 h5
    exact ⟨h3, h4, h5⟩
  | cons j js ih =>
    intro j2len newj2len best h1 h2 h3 h4 h5
    by_cases hlo : j < blo
    · simpa [innerLoop, hlo] using ih j2len newj2len best h1 h2 h3 h4 h5
    · by_cases hhi : bhi ≤ j
      · simp only [innerLoop, if_neg hlo, if_pos hhi]
        exact ⟨h3, h4, h5⟩
      · simp only [innerLoop, if_neg hlo, if_neg hhi]
        have hjblo : blo ≤ j := Nat.le_of_not_lt hlo
        have hjbhi : j < bhi := Nat.lt_of_not_le hhi
        have hk1 : (if j = 0 then 0 else j2len (j - 1)) + 1 ≤ i + 1 - alo := by
          rcases Nat.eq_zero_or_pos j with hj0 | hjpos
          · subst hj0; rw [if_pos rfl]; omega
          · rw [if_neg (Nat.pos_iff_ne_zero.mp hjpos)]
            have := h1 (j - 1); omega
        have hk2 : (if j = 0 then 0 else j2len (j - 1)) + 1 ≤ j + 1 - blo := by
          rcases Nat.eq_zero_or_pos j with hj0 | hjpos
          · subst hj0
            have hblo : blo = 0 := by omega
            rw [if_pos rfl]; omega
          · rw [if_neg (Nat.pos_iff_ne_zero.mp hjpos)]
            have := h2 (j - 1); omega
        apply ih
        · exact h1
        · exact h2
        · intro x
          by_cases hx : x = j
          · rw [if_pos hx]; exact hk1
          · rw [if_neg hx]; exact h3 x
        · intro x
          by_cases hx : x = j
          · rw [if_pos hx]; rw [hx]; exact hk2
          · rw [if_neg hx]; exact h4 x
        · by_cases hb : best.2.2 < (if j = 0 then 0 else j2len (j - 1)) + 1
          · rw [if_pos hb]
            exact bestInv_mk _ _ _ _ _ _ _ (by omega) (by omega) (by omega)
              (by omega) (by omega)
          · rw [if_neg hb]; exact h5

theorem outerLoop_inv [Inhabited α] (a : List α) (bj : α → List Nat)
    (blo bhi alo ahi : Nat) :
    ∀ (m i0 : Nat) (j2len : Nat → Nat) (best : Blk),
      alo ≤ i0 → (i0 + m ≤ ahi ∨ m = 0) →
      (∀ x, j2len x ≤ i0 - alo) →
      (∀ x, j2len x ≤ x + 1 - blo) →
      BestInv alo ahi blo bhi best →
      BestInv alo ahi blo bhi (outerLoop a bj blo bhi (List.range' i0 m) j2len best) := by
  intro m
  induction m with
  | zero =>
    intro i0 j2len best _ _ _ _ h5
    simpa [outerLoop] using h5
  | succ m ih =>
    intro i0 j2len best h0 hm h1 h2 h5
    have hi2 : i0 < ahi := by omega
    rw [List.range'_succ]
    simp only [outerLoop]
    have hinner := innerLoop_inv blo bhi i0 alo ahi h0 hi2
      (bj (a.getD i0 default)) j2len (fun _ => 0) best h1 h2
      (fun _ => Nat.zero_le _) (fun _ => Nat.zero_le _) h5
    exact ih (i0 + 1) _ _ (by omega) (by omega)
      (fun x => by have := hinner.1 x; omega) hinner.2.1 hinner.2.2

theorem extendLo_inv [DecidableEq α] [Inhabited α] (a b : List α)
    (alo blo ahi bhi : Nat) :
    ∀ (fuel : Nat) (best : Blk), BestInv alo ahi blo bhi best →
      BestInv alo ahi blo bhi (extendLo a b alo blo fuel best) := by
  intro fuel
  induction fuel with
  | zero => intro best h; simpa [extendLo] using h
  | succ fuel ih =>
    intro best h
    simp only [extendLo]
    split
    · rename_i hguard
      obtain ⟨hg1, hg2, _⟩ := hguard
      apply ih
      have hk : 0 < best.2.2 ∨ best.2.2 = 0 := by omega
      rcases hk with hk | hk
      · obtain ⟨_, h2⟩ := h
        obtain ⟨ha1, ha2, ha3, ha4⟩ := h2 hk
        exact bestInv_mk _ _ _ _ _ _ _ (by omega) (by omega) (by omega)
          (by omega) (by omega)
      · obtain ⟨h1, _⟩ := h
        have := h1 hk
        rw [this] at hg1
        simp at hg1
    · exact h

theorem extendHi_inv [DecidableEq α] [Inhabited α] (a b : List α)
    (alo blo ahi bhi : Nat) :
    ∀ (fuel : Nat) (best : Blk), BestInv alo ahi blo bhi best →
      BestInv alo ahi blo bhi (extendHi a b ahi bhi fuel best) := by
  intro fuel
  induction fuel with
  | zero => intro best h; simpa [extendHi] using h
  | succ fuel ih =>
    intro best h
    simp only [extendHi]
    split
    · rename_i hguard
      obtain ⟨hg1, hg2, _⟩ := hguard
      apply ih
      have hk : 0 < best.2.2 ∨ best.2.2 = 0 := by omega
      rcases hk with hk | hk
      · obtain ⟨_, h2⟩ := h
        obtain ⟨ha1, ha2, ha3, ha4⟩ := h2 hk
        exact bestInv_mk _ _ _ _ _ _ _ (by omega) (by omega) (by omega)
          (by omega) (by omega)
      · obtain ⟨h1, _⟩ := h
        have hb := h1 hk
        rw [hb] at hg1 hg2 ⊢
        simp at hg1 hg2 ⊢
        exact bestInv_mk _ _ _ _ _ _ _ (by omega) (by omega) (by omega)
          (by omega) (by omega)
    · exact h

theorem find_longest_match_inv [DecidableEq α] [Inhabited α] (a b : List α)
    (alo ahi blo bhi : Nat) :
    BestInv alo ahi blo bhi (find_longest_match a b alo ahi blo bhi) := by
  unfold find_longest_match
  apply extendHi_inv
  apply extendLo_inv
  apply outerLoop_inv
  · exact le_refl alo
  · omega
  · intro x; omega
  · intro x; omega
  · exact ⟨fun _ => rfl, fun h => absurd (show 0 < 0 from h) (by omega)⟩

theorem flm_block_in [DecidableEq α] [Inhabited α] (a b : List α)
    (alo ahi blo bhi : Nat)
    (hk : 0 < (find_longest_match a b alo ahi blo bhi).2.2) :
    BlockIn (alo, ahi, blo, bhi) (find_longest_match a b alo ahi blo bhi) := by
  have h := (find_longest_match_inv a b alo ahi blo bhi).2 hk
  exact ⟨h.1, h.2.1, h.2.2.1, h.2.2.2⟩

theorem queueLoop_inv [DecidableEq α] [Inhabited α] (a b : List α) (la lb : Nat) :
    ∀ (fuel : Nat) (queue : List Win) (acc : List Blk),
      QInv la lb queue acc →
      (∀ m ∈ queueLoop a b fuel queue acc,
        0 < m.2.2 ∧ m.1 + m.2.2 ≤ la ∧ m.2.1 + m.2.2 ≤ lb) ∧
      List.Pairwise BSep (queueLoop a b fuel queue acc) := by
  intro fuel
  induction fuel with
  | zero =>
    intro queue acc h
    simp only [queueLoop]
    exact ⟨h.2.2.1, h.2.2.2.2⟩
  | succ fuel ih =>
    intro queue acc h
    rcases queue with _ | ⟨⟨alo, ahi, blo, bhi⟩, rest⟩
    · simp only [queueLoop]
      exact ⟨h.2.2.1, h.2.2.2.2⟩
    · obtain ⟨hwb, hwsep, hacc, hbw, hpair⟩ := h
      rw [List.pairwise_cons] at hwsep
      obtain ⟨hw_rest, hrest_pair⟩ := hwsep
      have hw_bounds : ahi ≤ la ∧ bhi ≤ lb := hwb _ (List.mem_cons_self _ _)
      simp only [queueLoop]
      by_cases hk : (find_longest_match a b alo ahi blo bhi).2.2 = 0
      · rw [if_pos hk]
        apply ih
        refine ⟨fun w hw => hwb w (List.mem_cons_of_mem _ hw), hrest_pair, hacc,
          fun m hm w hw => hbw m hm w (List.mem_cons_of_mem _ hw), hpair⟩
      · rw [if_neg hk]
        have hbi := flm_block_in a b alo ahi blo bhi (Nat.pos_of_ne_zero hk)
        generalize hgen : find_longest_match a b alo ahi blo bhi = m at hk hbi ⊢
        obtain ⟨mi, mj, mk⟩ := m
        dsimp only at hk hbi ⊢
        simp only [BlockIn] at hbi
        obtain ⟨hb1, hb2, hb3, hb4⟩ := hbi
        have hkpos : 0 < mk := Nat.pos_of_ne_zero hk
        -- facts about the new block and windows
        have hm_props : 0 < mk ∧ mi + mk ≤ la ∧ mj + mk ≤ lb := by
          exact ⟨hkpos, by omega, by omega⟩
        have hacc1 : ∀ x ∈ acc ++ [(mi, mj, mk)],
            0 < x.2.2 ∧ x.1 + x.2.2 ≤ la ∧ x.2.1 + x.2.2 ≤ lb := by
          intro x hx
          rcases List.mem_append.mp hx with hx | hx
          · exact hacc x hx
          · rcases List.mem_singleton.mp hx with rfl
            exact hm_props
        have hsep_acc_m : ∀ x ∈ acc, BSep x (mi, mj, mk) := by
          intro x hx
          have := hbw x hx _ (List.mem_cons_self _ _)
          simp only [BWSep] at this
          simp only [BSep]
          rcases this with ⟨h1, h2⟩ | ⟨h1, h2⟩
          · exact Or.inl ⟨by omega, by omega⟩
          · exact Or.inr ⟨by omega, by omega⟩
        have hpair1 : List.Pairwise BSep (acc ++ [(mi, mj, mk)]) := by
          rw [List.pairwise_append]
          exact ⟨hpair, List.pairwise_singleton _ _,
            fun x hx y hy => by rcases List.mem_singleton.mp hy with rfl; exact hsep_acc_m x hx⟩
        have hbw_m_rest : ∀ w ∈ rest, BWSep (mi, mj, mk) w := by
          intro w hw
          have := hw_rest w hw
          obtain ⟨w1, w2, w3, w4⟩ := w
          simp only [WSep] at this
          simp only [BWSep]
          rcases this with ⟨h1, h2⟩ | ⟨h1, h2⟩
          · exact Or.inl ⟨by omega, by omega⟩
          · exact Or.inr ⟨by omega, by omega⟩
        have hbw_acc_rest : ∀ x ∈ acc ++ [(mi, mj, mk)], ∀ w ∈ rest, BWSep x w := by
          intro x hx w hw
          rcases List.mem_append.mp hx with hx | hx
          · exact hbw x hx w (List.mem_cons_of_mem _ hw)
          · rcases List.mem_singleton.mp hx with rfl
            exact hbw_m_rest w hw
        have hbw_acc_L : ∀ x ∈ acc ++ [(mi, mj, mk)], BWSep x (alo, mi, blo, mj) := by
          intro x hx
          rcases List.mem_append.mp hx with hx | hx
          · have := hbw x hx _ (List.mem_cons_self _ _)
            simp only [BWSep] at this ⊢
            rcases this with ⟨h1, h2⟩ | ⟨h1, h2⟩
            · exact Or.inl ⟨by omega, by omega⟩
            · exact Or.inr ⟨by omega, by omega⟩
          · rcases List.mem_singleton.mp hx with rfl
            exact Or.inr ⟨le_refl _, le_refl _⟩
        have hbw_acc_R : ∀ x ∈ acc ++ [(mi, mj, mk)],
            BWSep x (mi + mk, ahi, mj + mk, bhi) := by
          intro x hx
          rcases List.mem_append.mp hx with hx | hx
          · have := hbw x hx _ (List.mem_cons_self _ _)
            simp only [BWSep] at this ⊢
            rcases this with ⟨h1, h2⟩ | ⟨h1, h2⟩
            · exact Or.inl ⟨by omega, by omega⟩
            · exact Or.inr ⟨by omega, by omega⟩
          · rcases List.mem_singleton.mp hx with rfl
            exact Or.inl ⟨le_refl _, le_refl _⟩
        have hsep_L_rest : ∀ w ∈ rest, WSep (alo, mi, blo, mj) w := by
          intro w hw
          have := hw_rest w hw
          obtain ⟨w1, w2, w3, w4⟩ := w
          simp only [WSep] at this ⊢
          rcases this with ⟨h1, h2⟩ | ⟨h1, h2⟩
          · exact Or.inl ⟨by omega, by omega⟩
          · exact Or.inr ⟨by omega, by omega⟩
        have hsep_R_rest : ∀ w ∈ rest, WSep (mi + mk, ahi, mj + mk, bhi) w := by
          intro w hw
          have := hw_rest w hw
          obtain ⟨w1, w2, w3, w4⟩ := w
          simp only [WSep] at this ⊢
          rcases this with ⟨h1, h2⟩ | ⟨h1, h2⟩
          · exact Or.inl ⟨by omega, by omega⟩
          · exact Or.inr ⟨by omega, by omega⟩
        have hsep_R_L : WSep (mi + mk, ahi, mj + mk, bhi) (alo, mi, blo, mj) := by
          simp only [WSep]
          exact Or.inr ⟨by omega, by omega⟩
        have hrest_bounds : ∀ w ∈ rest, w.2.1 ≤ la ∧ w.2.2.2 ≤ lb :=
          fun w hw => hwb w (List.mem_cons_of_mem _ hw)
        by_cases hc1 : alo < mi ∧ blo < mj
        · rw [if_pos hc1]
          by_cases hc2 : mi + mk < ahi ∧ mj + mk < bhi
          · rw [if_pos hc2]
            apply ih
            refine ⟨?_, ?_, hacc1, ?_, hpair1⟩
            · intro w hw
              rcases List.mem_cons.mp hw with rfl | hw
              · exact ⟨show ahi ≤ la by omega, show bhi ≤ lb by omega⟩
              · rcases List.mem_cons.mp hw with rfl | hw
                · exact ⟨show mi ≤ la by omega, show mj ≤ lb by omega⟩
                · exact hrest_bounds w hw
            · rw [List.pairwise_cons]
              refine ⟨?_, ?_⟩
              · intro w hw
                rcases List.mem_cons.mp hw with rfl | hw
                · exact hsep_R_L
                · exact hsep_R_rest w hw
              · rw [List.pairwise_cons]
                exact ⟨hsep_L_rest, hrest_pair⟩
            · intro x hx w hw
              rcases List.mem_cons.mp hw with rfl | hw
              · exact hbw_acc_R x hx
              · rcases List.mem_cons.mp hw with rfl | hw
                · exact hbw_acc_L x hx
                · exact hbw_acc_rest x hx w hw
          · rw [if_neg hc2]
            apply ih
            refine ⟨?_, ?_, hacc1, ?_, hpair1⟩
            · intro w hw
              rcases List.mem_cons.mp hw with rfl | hw
              · exact ⟨show mi ≤ la by omega, show mj ≤ lb by omega⟩
              · exact hrest_bounds w hw
            · rw [List.pairwise_cons]
              exact ⟨hsep_L_rest, hrest_pair⟩
            · intro x hx w hw
              rcases List.mem_cons.mp hw with rfl | hw
              · exact hbw_acc_L x hx
              · exact hbw_acc_rest x hx w hw
        · rw [if_neg hc1]
          by_cases hc2 : mi + mk < ahi ∧ mj + mk < bhi
          · rw [if_pos hc2]
            apply ih
            refine ⟨?_, ?_, hacc1, ?_, hpair1⟩
            · intro w hw
              rcases List.mem_cons.mp hw with rfl | hw
              · exact ⟨show ahi ≤ la by omega, show bhi ≤ lb by omega⟩
              · exact hrest_bounds w hw
            · rw [List.pairwise_cons]
              exact ⟨hsep_R_rest, hrest_pair⟩
            · intro x hx w hw
              rcases List.mem_cons.mp hw with rfl | hw
              · exact hbw_acc_R x hx
              · exact hbw_acc_rest x hx w hw
          · rw [if_neg hc2]
            apply ih
            exact ⟨hrest_bounds, hrest_pair, hacc1, hbw_acc_rest, hpair1⟩

/-! ### Proofs: from blocks to aligned pairs -/

theorem bsep_symm : Symmetric BSep := by
  intro x y h
  rcases h with h | h
  · exact Or.inr h
  · exact Or.inl h

theorem blkPairs_zero (m : Blk) (h : m.2.2 = 0) : blkPairs m = [] := by
  unfold blkPairs
  rw [h]
  rfl

theorem blkPairs_mem (m : Blk) (p : Nat × Nat) :
    p ∈ blkPairs m ↔ m.1 ≤ p.1 ∧ p.1 < m.1 + m.2.2 ∧ p.2 = m.2.1 + (p.1 - m.1) := by
  obtain ⟨p1, p2⟩ := p
  unfold blkPairs
  simp only [List.mem_map, List.mem_range, Prod.mk.injEq]
  constructor
  · rintro ⟨t, ht, rfl, rfl⟩
    exact ⟨by omega, by omega, by omega⟩
  · rintro ⟨h1, h2, h3⟩
    exact ⟨p1 - m.1, by omega, by omega, by omega⟩

theorem blkPairs_split (c x : Blk) (h1 : c.1 + c.2.2 = x.1) (h2 : c.2.1 + c.2.2 = x.2.1) :
    blkPairs (c.1, c.2.1, c.2.2 + x.2.2) = blkPairs c ++ blkPairs x := by
  unfold blkPairs
  dsimp only
  rw [List.range_add, List.map_append, List.map_map]
  congr 1
  apply List.map_congr_left
  intro t _
  simp only [Function.comp_apply]
  rw [← h1, ← h2]
  simp only [Prod.mk.injEq]
  omega

theorem collapseAdj_pairs :
    ∀ (l : List Blk) (c : Blk),
      (collapseAdj c l).flatMap blkPairs = blkPairs c ++ l.flatMap blkPairs := by
  intro l
  induction l with
  | nil =>
    intro c
    simp only [collapseAdj]
    by_cases h : c.2.2 = 0
    · rw [if_pos h, blkPairs_zero c h]
      rfl
    · rw [if_neg h]
      simp
  | cons x xs ih =>
    intro c
    simp only [collapseAdj]
    by_cases h : c.1 + c.2.2 = x.1 ∧ c.2.1 + c.2.2 = x.2.1
    · rw [if_pos h, ih, blkPairs_split c x h.1 h.2]
      simp
    · rw [if_neg h]
      by_cases h0 : c.2.2 = 0
      · rw [if_pos h0, blkPairs_zero c h0]
        simp only [List.nil_append, List.flatMap_cons]
        rw [ih]
      · rw [if_neg h0]
        simp only [List.flatMap_cons, List.singleton_append, List.flatMap_cons]
        rw [ih]

theorem initial_qinv (la lb : Nat) : QInv la lb [(0, la, 0, lb)] [] := by
  refine ⟨?_, List.pairwise_singleton _ _, ?_, ?_, List.Pairwise.nil⟩
  · intro w hw
    rcases List.mem_singleton.mp hw with rfl
    exact ⟨le_refl _, le_refl _⟩
  · intro m hm
    exact absurd hm (List.not_mem_nil m)
  · intro m hm
    exact absurd hm (List.not_mem_nil m)

theorem collected_props [DecidableEq α] [Inhabited α] (a b : List α) :
    (∀ m ∈ queueLoop a b (a.length + b.length + 1) [(0, a.length, 0, b.length)] [],
      0 < m.2.2 ∧ m.1 + m.2.2 ≤ a.length ∧ m.2.1 + m.2.2 ≤ b.length) ∧
    List.Pairwise BSep
      (queueLoop a b (a.length + b.length + 1) [(0, a.length, 0, b.length)] []) :=
  queueLoop_inv a b a.length b.length _ _ _ (initial_qinv a.length b.length)

theorem gmb_pairs_perm [DecidableEq α] [Inhabited α] (a b : List α) :
    ((get_matching_blocks a b).flatMap blkPairs).Perm
      ((queueLoop a b (a.length + b.length + 1) [(0, a.length, 0, b.length)] []).flatMap
        blkPairs) := by
  unfold get_matching_blocks
  rw [List.flatMap_append, collapseAdj_pairs]
  have h0 : blkPairs (0, 0, 0) = [] := blkPairs_zero _ rfl
  have h1 : ([(a.length, b.length, 0)] : List Blk).flatMap blkPairs = [] := by
    simp [blkPairs_zero]
  rw [h0, h1, List.nil_append, List.append_nil]
  exact List.Perm.flatMap_right blkPairs (List.perm_insertionSort blockLE _)

theorem pairs_bound (la lb : Nat) (l : List Blk)
    (hb : ∀ m ∈ l, 0 < m.2.2 ∧ m.1 + m.2.2 ≤ la ∧ m.2.1 + m.2.2 ≤ lb) :
    ∀ p ∈ l.flatMap blkPairs, p.1 < la ∧ p.2 < lb := by
  intro p hp
  rw [List.mem_flatMap] at hp
  obtain ⟨m, hm, hp⟩ := hp
  rw [blkPairs_mem] at hp
  have := hb m hm
  exact ⟨by omega, by omega⟩

theorem pairs_mono (l : List Blk) (hpos : ∀ m ∈ l, 0 < m.2.2)
    (hsep : List.Pairwise BSep l) :
    ∀ p ∈ l.flatMap blkPairs, ∀ q ∈ l.flatMap blkPairs, p.1 < q.1 → p.2 < q.2 := by
  intro p hp q hq hlt
  rw [List.mem_flatMap] at hp hq
  obtain ⟨m1, hm1, hp⟩ := hp
  obtain ⟨m2, hm2, hq⟩ := hq
  rw [blkPairs_mem] at hp hq
  by_cases heq : m1 = m2
  · subst heq
    omega
  · have hsep12 : BSep m1 m2 := hsep.forall bsep_symm hm1 hm2 heq
    have h1 := hpos m1 hm1
    have h2 := hpos m2 hm2
    rcases hsep12 with ⟨ha, hb⟩ | ⟨ha, hb⟩ <;> omega

theorem pairs_nodup_fst (l : List Blk) (hpos : ∀ m ∈ l, 0 < m.2.2)
    (hsep : List.Pairwise BSep l) :
    ((l.flatMap blkPairs).map Prod.fst).Nodup := by
  induction l with
  | nil => simp
  | cons m rest ih =>
    rw [List.pairwise_cons] at hsep
    obtain ⟨hm_rest, hrest⟩ := hsep
    rw [List.flatMap_cons, List.map_append]
    rw [List.nodup_append]
    refine ⟨?_, ih (fun x hx => hpos x (List.mem_cons_of_mem _ hx)) hrest, ?_⟩
    · unfold blkPairs
      rw [List.map_map]
      have : (Prod.fst ∘ fun t => (m.1 + t, m.2.1 + t)) = (fun t => m.1 + t) := rfl
      rw [this]
      exact (List.nodup_range _).map (fun x y h => by omega)
    · intro x hx hx2
      rw [List.mem_map] at hx hx2
      obtain ⟨p, hp, rfl⟩ := hx
      obtain ⟨q, hq, hpq⟩ := hx2
      rw [blkPairs_mem] at hp
      rw [List.mem_flatMap] at hq
      obtain ⟨m2, hm2, hq⟩ := hq
      rw [blkPairs_mem] at hq
      have hs := hm_rest m2 hm2
      have h1 := hpos m2 (List.mem_cons_of_mem _ hm2)
      rcases hs with ⟨ha, hb⟩ | ⟨ha, hb⟩ <;> omega

theorem pairs_nodup_snd (l : List Blk) (hpos : ∀ m ∈ l, 0 < m.2.2)
    (hsep : List.Pairwise BSep l) :
    ((l.flatMap blkPairs).map Prod.snd).Nodup := by
  induction l with
  | nil => simp
  | cons m rest ih =>
    rw [List.pairwise_cons] at hsep
    obtain ⟨hm_rest, hrest⟩ := hsep
    rw [List.flatMap_cons, List.map_append]
    rw [List.nodup_append]
    refine ⟨?_, ih (fun x hx => hpos x (List.mem_cons_of_mem _ hx)) hrest, ?_⟩
    · unfold blkPairs
      rw [List.map_map]
      have : (Prod.snd ∘ fun t => (m.1 + t, m.2.1 + t)) = (fun t => m.2.1 + t) := rfl
      rw [this]
      exact (List.nodup_range _).map (fun x y h => by omega)
    · intro x hx hx2
      rw [List.mem_map] at hx hx2
      obtain ⟨p, hp, rfl⟩ := hx
      obtain ⟨q, hq, hpq⟩ := hx2
      rw [blkPairs_mem] at hp
      rw [List.mem_flatMap] at hq
      obtain ⟨m2, hm2, hq⟩ := hq
      rw [blkPairs_mem] at hq
      have hs := hm_rest m2 hm2
      have h1 := hpos m2 (List.mem_cons_of_mem _ hm2)
      have h0 := hpos m (List.mem_cons_self _ _)
      rcases hs with ⟨ha, hb⟩ | ⟨ha, hb⟩ <;> omega

theorem gmb_pairs_bound [DecidableEq α] [Inhabited α] (a b : List α) :
    ∀ p ∈ (get_matching_blocks a b).flatMap blkPairs, p.1 < a.length ∧ p.2 < b.length :=
  fun p hp =>
    pairs_bound a.length b.length _ (collected_props a b).1 p
      ((gmb_pairs_perm a b).subset hp)

theorem gmb_pairs_mono [DecidableEq α] [Inhabited α] (a b : List α) :
    ∀ p ∈ (get_matching_blocks a b).flatMap blkPairs,
      ∀ q ∈ (get_matching_blocks a b).flatMap blkPairs, p.1 < q.1 → p.2 < q.2 :=
  fun p hp q hq =>
    pairs_mono _ (fun m hm => ((collected_props a b).1 m hm).1) (collected_props a b).2 p
      ((gmb_pairs_perm a b).subset hp) q ((gmb_pairs_perm a b).subset hq)

theorem gmb_pairs_nodup_fst [DecidableEq α] [Inhabited α] (a b : List α) :
    (((get_matching_blocks a b).flatMap blkPairs).map Prod.fst).Nodup :=
  ((gmb_pairs_perm a b).map Prod.fst).symm.nodup
    (pairs_nodup_fst _ (fun m hm => ((collected_props a b).1 m hm).1) (collected_props a b).2)

theorem gmb_pairs_nodup_snd [DecidableEq α] [Inhabited α] (a b : List α) :
    (((get_matching_blocks a b).flatMap blkPairs).map Prod.snd).Nodup :=
  ((gmb_pairs_perm a b).map Prod.snd).symm.nodup
    (pairs_nodup_snd _ (fun m hm => ((collected_props a b).1 m hm).1) (collected_props a b).2)

/-! ### Claim theorems for the Verse Aligner -/

/-- C1: for every pair of input word lists and every feature-name list,
align_verse_words returns (it is a total function) and its outputs totally
partition both sides: the source indices occurring in the returned pairs
together with the returned source-gap indices are exactly
{0..len(source)-1}, the two sets are disjoint, each index occurs in at most
one pair, and symmetrically on the reference side; if one side is empty,
every index of the other side is a gap. -/
theorem claim_C1_alignment_partition (nfc : String → String)
    (tr_words n1904_words : List WordRec) (match_criteria : List String)
    (threshold : Float) :
    (∀ p ∈ (align_verse_words nfc tr_words n1904_words match_criteria threshold).1,
      p.1 < tr_words.length ∧ p.2 < n1904_words.length) ∧
    (∀ i : Nat, i < tr_words.length ↔
      (i ∈ (align_verse_words nfc tr_words n1904_words match_criteria threshold).1.map
          Prod.fst ∨
       i ∈ (align_verse_words nfc tr_words n1904_words match_criteria threshold).2.1)) ∧
    (∀ i : Nat, ¬(i ∈ (align_verse_words nfc tr_words n1904_words match_criteria
          threshold).1.map Prod.fst ∧
       i ∈ (align_verse_words nfc tr_words n1904_words match_criteria threshold).2.1)) ∧
    ((align_verse_words nfc tr_words n1904_words match_criteria threshold).1.map
      Prod.fst).Nodup ∧
    (∀ j : Nat, j < n1904_words.length ↔
      (j ∈ (align_verse_words nfc tr_words n1904_words match_criteria threshold).1.map
          Prod.snd ∨
       j ∈ (align_verse_words nfc tr_words n1904_words match_criteria threshold).2.2)) ∧
    (∀ j : Nat, ¬(j ∈ (align_verse_words nfc tr_words n1904_words match_criteria
          threshold).1.map Prod.snd ∧
       j ∈ (align_verse_words nfc tr_words n1904_words match_criteria threshold).2.2)) ∧
    ((align_verse_words nfc tr_words n1904_words match_criteria threshold).1.map
      Prod.snd).Nodup ∧
    (tr_words = [] →
      (align_verse_words nfc tr_words n1904_words match_criteria threshold).2.2 =
        List.range n1904_words.length) ∧
    (n1904_words = [] →
      (align_verse_words nfc tr_words n1904_words match_criteria threshold).2.1 =
        List.range tr_words.length) := by
  have e1 : (align_verse_words nfc tr_words n1904_words match_criteria threshold).1 =
      (get_matching_blocks
        (tr_words.map (fun w => create_word_key nfc w match_criteria))
        (n1904_words.map (fun w => create_word_key nfc w match_criteria))).flatMap
        blkPairs := rfl
  have e2 : (align_verse_words nfc tr_words n1904_words match_criteria threshold).2.1 =
      (List.range tr_words.length).filter
        (fun i => decide (¬ i ∈
          (align_verse_words nfc tr_words n1904_words match_criteria threshold).1.map
            Prod.fst)) := rfl
  have e3 : (align_verse_words nfc tr_words n1904_words match_criteria threshold).2.2 =
      (List.range n1904_words.length).filter
        (fun j => decide (¬ j ∈
          (align_verse_words nfc tr_words n1904_words match_criteria threshold).1.map
            Prod.snd)) := rfl
  have hlen1 : (tr_words.map (fun w => create_word_key nfc w match_criteria)).length =
      tr_words.length := List.length_map _ _
  have hlen2 : (n1904_words.map (fun w => create_word_key nfc w match_criteria)).length =
      n1904_words.length := List.length_map _ _
  have hbound := gmb_pairs_bound
    (tr_words.map (fun w => create_word_key nfc w match_criteria))
    (n1904_words.map (fun w => create_word_key nfc w match_criteria))
  have hndf := gmb_pairs_nodup_fst
    (tr_words.map (fun w => create_word_key nfc w match_criteria))
    (n1904_words.map (fun w => create_word_key nfc w match_criteria))
  have hnds := gmb_pairs_nodup_snd
    (tr_words.map (fun w => create_word_key nfc w match_criteria))
    (n1904_words.map (fun w => create_word_key nfc w match_criteria))
  refine ⟨?_, ?_, ?_, ?_, ?_, ?_, ?_, ?_, ?_⟩
  · intro p hp
    rw [e1] at hp
    have := hbound p hp
    omega
  · intro i
    constructor
    · intro hi
      by_cases hmem : i ∈ (align_verse_words nfc tr_words n1904_words match_criteria
          threshold).1.map Prod.fst
      · exact Or.inl hmem
      · right
        rw [e2, List.mem_filter]
        exact ⟨List.mem_range.mpr hi, decide_eq_true hmem⟩
    · intro h
      rcases h with h | h
      · rw [e1, List.mem_map] at h
        obtain ⟨p, hp, rfl⟩ := h
        have := hbound p hp
        omega
      · rw [e2, List.mem_filter] at h
        exact List.mem_range.mp h.1
  · intro i hi
    obtain ⟨hm, hg⟩ := hi
    rw [e2, List.mem_filter] at hg
    exact (of_decide_eq_true hg.2) hm
  · rw [e1]
    exact hndf
  · intro j
    constructor
    · intro hj
      by_cases hmem : j ∈ (align_verse_words nfc tr_words n1904_words match_criteria
          threshold).1.map Prod.snd
      · exact Or.inl hmem
      · right
        rw [e3, List.mem_filter]
        exact ⟨List.mem_range.mpr hj, decide_eq_true hmem⟩
    · intro h
      rcases h with h | h
      · rw [e1, List.mem_map] at h
        obtain ⟨p, hp, rfl⟩ := h
        have := hbound p hp
        omega
      · rw [e3, List.mem_filter] at h
        exact List.mem_range.mp h.1
  · intro j hj
    obtain ⟨hm, hg⟩ := hj
    rw [e3, List.mem_filter] at hg
    exact (of_decide_eq_true hg.2) hm
  · rw [e1]
    exact hnds
  · intro htr
    subst htr
    rw [e3]
    apply List.filter_eq_self.mpr
    intro j _
    apply decide_eq_true
    intro hc
    rw [e1, List.mem_map] at hc
    obtain ⟨p, hp, _⟩ := hc
    have := (hbound p hp).1
    simp at this
  · intro hn
    subst hn
    rw [e2]
    apply List.filter_eq_self.mpr
    intro i _
    apply decide_eq_true
    intro hc
    rw [e1, List.mem_map] at hc
    obtain ⟨p, hp, _⟩ := hc
    have := (hbound p hp).2
    simp at this

/-- Witness for C1 at a concrete input: with an empty source side, the
hypothesis of the final conjunct is discharged and every reference index is
a gap. -/
theorem claim_C1_alignment_partition_witness :
    (align_verse_words id ([] : List WordRec) [[("word", Val.vStr "a")]] ["word"] 0.95).2.2 =
      List.range 1 :=
  (claim_C1_alignment_partition id [] [[("word", Val.vStr "a")]] ["word"]
    0.95).2.2.2.2.2.2.2.1 rfl

/-- C2: order preservation — for any two pairs (i1, j1) and (i2, j2) in the
alignment list returned by align_verse_words, i1 < i2 implies j1 < j2, for
every pair of input word lists, every feature list and every threshold. -/
theorem claim_C2_order_preservation (nfc : String → String)
    (tr_words n1904_words : List WordRec) (match_criteria : List String)
    (threshold : Float) :
    ∀ p ∈ (align_verse_words nfc tr_words n1904_words match_criteria threshold).1,
      ∀ q ∈ (align_verse_words nfc tr_words n1904_words match_criteria threshold).1,
        p.1 < q.1 → p.2 < q.2 := by
  have e1 : (align_verse_words nfc tr_words n1904_words match_criteria threshold).1 =
      (get_matching_blocks
        (tr_words.map (fun w => create_word_key nfc w match_criteria))
        (n1904_words.map (fun w => create_word_key nfc w match_criteria))).flatMap
        blkPairs := rfl
  intro p hp q hq hlt
  rw [e1] at hp hq
  exact gmb_pairs_mono _ _ p hp q hq hlt

/-- Witness for C2 at a concrete input: two identical two-word verses align
as (0,0) and (1,1), and the theorem yields 0 < 1 on the second components. -/
theorem claim_C2_order_preservation_witness :
    (0, 0) ∈ (align_verse_words id
      [[("word", Val.vStr "a")], [("word", Val.vStr "b")]]
      [[("word", Val.vStr "a")], [("word", Val.vStr "b")]] ["word"] 0.95).1 ∧
    (1, 1) ∈ (align_verse_words id
      [[("word", Val.vStr "a")], [("word", Val.vStr "b")]]
      [[("word", Val.vStr "a")], [("word", Val.vStr "b")]] ["word"] 0.95).1 ∧
    ((0, 0) : Nat × Nat).2 < ((1, 1) : Nat × Nat).2 :=
  ⟨by decide, by decide,
    claim_C2_order_preservation id
      [[("word", Val.vStr "a")], [("word", Val.vStr "b")]]
      [[("word", Val.vStr "a")], [("word", Val.vStr "b")]] ["word"] 0.95
      (0, 0) (by decide) (1, 1) (by decide) (by decide)⟩

/-- C9: the threshold parameter of align_verse_words has no effect on its
result — the source accepts it but never reads it, so the function is
definitionally independent of it. -/
theorem claim_C9_threshold_unused (nfc : String → String)
    (tr_words n1904_words : List WordRec) (match_criteria : List String)
    (t1 t2 : Float) :
    align_verse_words nfc tr_words n1904_words match_criteria t1 =
      align_verse_words nfc tr_words n1904_words match_criteria t2 := rfl

/-! ### Claim theorems for the ID Translator -/

theorem build_id_translation_char (a : List IdAlignRow) (n : List N1904Syn) :
    ∀ r ∈ build_id_translation a n,
      (r.node_type = "word" ∧ ∃ x ∈ a, r.tr_id = x.tr_word_id) ∨
      (r.node_type = "clause" ∧ 1000000 ≤ r.tr_id ∧
        r.tr_id < 1000000 + ((uniqueClauses a n).length : Int)) ∨
      (r.node_type = "phrase" ∧ 2000000 ≤ r.tr_id ∧
        r.tr_id < 2000000 + ((uniquePhrases a n).length : Int)) := by
  intro r hr
  unfold build_id_translation at hr
  rw [List.append_assoc, List.mem_append] at hr
  rcases hr with hr | hr
  · rw [List.mem_map] at hr
    obtain ⟨x, hx, rfl⟩ := hr
    exact Or.inl ⟨rfl, x, hx, rfl⟩
  · rw [List.mem_append] at hr
    rcases hr with hr | hr
    · rw [List.mem_map] at hr
      obtain ⟨⟨i, c⟩, hp, rfl⟩ := hr
      have hb := List.mem_enumFrom hp
      have hi : i < (uniqueClauses a n).length := by
        have := hb.2.1
        omega
      refine Or.inr (Or.inl ⟨rfl, ?_, ?_⟩)
      · dsimp only
        omega
      · dsimp only
        omega
    · rw [List.mem_map] at hr
      obtain ⟨⟨i, c⟩, hp, rfl⟩ := hr
      have hb := List.mem_enumFrom hp
      have hi : i < (uniquePhrases a n).length := by
        have := hb.2.1
        omega
      refine Or.inr (Or.inr ⟨rfl, ?_, ?_⟩)
      · dsimp only
        omega
      · dsimp only
        omega

/-- C3: namespace disjointness of the ID translation table — no tr_id value
appears under two different node_type values, whenever every TR word_id in
the alignment table is below 1000000 and there are at most 1000000 distinct
clause ids. -/
theorem claim_C3_namespace_disjoint (a : List IdAlignRow) (n : List N1904Syn)
    (hword : ∀ x ∈ a, x.tr_word_id < 1000000)
    (hclause : (uniqueClauses a n).length ≤ 1000000) :
    ∀ r1 ∈ build_id_translation a n, ∀ r2 ∈ build_id_translation a n,
      r1.node_type ≠ r2.node_type → r1.tr_id ≠ r2.tr_id := by
  intro r1 h1 r2 h2 hne
  have c1 := build_id_translation_char a n r1 h1
  have c2 := build_id_translation_char a n r2 h2
  rcases c1 with ⟨ht1, x1, hx1, he1⟩ | ⟨ht1, hl1, hu1⟩ | ⟨ht1, hl1, hu1⟩ <;>
    rcases c2 with ⟨ht2, x2, hx2, he2⟩ | ⟨ht2, hl2, hu2⟩ | ⟨ht2, hl2, hu2⟩
  · rw [ht1, ht2] at hne; exact absurd rfl hne
  · have := hword x1 hx1; omega
  · have := hword x1 hx1; omega
  · have := hword x2 hx2; omega
  · rw [ht1, ht2] at hne; exact absurd rfl hne
  · omega
  · have := hword x2 hx2; omega
  · omega
  · rw [ht1, ht2] at hne; exact absurd rfl hne

/-- Witness for C3 at a concrete input: one aligned word (TR id 1, N1904
node 50) whose node carries clause 7 and phrase 8; the word row and the
clause row of the resulting table have different node types and the theorem
yields distinct assigned ids. -/
theorem claim_C3_namespace_disjoint_witness :
    ({ n1904_id := 50, tr_id := 1, node_type := "word" } : IdMapRow) ∈
      build_id_translation [⟨1, 50⟩] [⟨50, some 7, some 8⟩] ∧
    ({ n1904_id := 7, tr_id := 1000000, node_type := "clause" } : IdMapRow) ∈
      build_id_translation [⟨1, 50⟩] [⟨50, some 7, some 8⟩] ∧
    ({ n1904_id := 50, tr_id := 1, node_type := "word" } : IdMapRow).tr_id ≠
      ({ n1904_id := 7, tr_id := 1000000, node_type := "clause" } : IdMapRow).tr_id :=
  ⟨by decide, by decide,
    claim_C3_namespace_disjoint [⟨1, 50⟩] [⟨50, some 7, some 8⟩]
      (by decide) (by decide) _ (by decide) _ (by decide) (by decide)⟩

/-- C4: determinism — the corpus aligner and the ID-map builder are
functions of their inputs (identical inputs give identical outputs, rows in
the same order), and the k-th distinct clause id in order of first
appearance receives assigned id 1000000 + k, the k-th distinct phrase id
2000000 + k (0-based k; equivalently 1000000 + k - 1 for 1-based k). -/
theorem claim_C4_determinism :
    (∀ (nfc : String → String) (tr1 n1 tr2 n2 : List WordRec) (c1 c2 : List String),
      tr1 = tr2 → n1 = n2 → c1 = c2 →
      run_full_alignment nfc tr1 n1 c1 = run_full_alignment nfc tr2 n2 c2) ∧
    (∀ (a1 a2 : List IdAlignRow) (m1 m2 : List N1904Syn), a1 = a2 → m1 = m2 →
      build_id_translation a1 m1 = build_id_translation a2 m2) ∧
    (∀ (a : List IdAlignRow) (n : List N1904Syn) (k : Nat),
      k < (uniqueClauses a n).length →
      ((build_id_translation a n).filter
          (fun r => decide (r.node_type = "clause"))).getD k default =
        { n1904_id := (uniqueClauses a n).getD k 0, tr_id := 1000000 + (k : Int),
          node_type := "clause" }) ∧
    (∀ (a : List IdAlignRow) (n : List N1904Syn) (k : Nat),
      k < (uniquePhrases a n).length →
      ((build_id_translation a n).filter
          (fun r => decide (r.node_type = "phrase"))).getD k default =
        { n1904_id := (uniquePhrases a n).getD k 0, tr_id := 2000000 + (k : Int),
          node_type := "phrase" }) := by
  refine ⟨?_, ?_, ?_, ?_⟩
  · intro nfc tr1 n1 tr2 n2 c1 c2 h1 h2 h3
    rw [h1, h2, h3]
  · intro a1 a2 m1 m2 h1 h2
    rw [h1, h2]
  · intro a n k hk
    have hfil : (build_id_translation a n).filter
        (fun r => decide (r.node_type = "clause")) =
        (uniqueClauses a n).enum.map (fun p =>
          { n1904_id := p.2, tr_id := 1000000 + (p.1 : Int),
            node_type := "clause" }) := by
      unfold build_id_translation
      rw [List.filter_append, List.filter_append]
      have h1 : (a.map (fun x =>
          ({ n1904_id := x.n1904_node_id, tr_id := x.tr_word_id,
             node_type := "word" } : IdMapRow))).filter
          (fun r => decide (r.node_type = "clause")) = [] := by
        rw [List.filter_eq_nil_iff]
        intro r hr
        rw [List.mem_map] at hr
        obtain ⟨x, _, rfl⟩ := hr
        simp
      have h2 : ((uniquePhrases a n).enum.map (fun p =>
          ({ n1904_id := p.2, tr_id := 2000000 + (p.1 : Int),
             node_type := "phrase" } : IdMapRow))).filter
          (fun r => decide (r.node_type = "clause")) = [] := by
        rw [List.filter_eq_nil_iff]
        intro r hr
        rw [List.mem_map] at hr
        obtain ⟨x, _, rfl⟩ := hr
        simp
      have h3 : ((uniqueClauses a n).enum.map (fun p =>
          ({ n1904_id := p.2, tr_id := 1000000 + (p.1 : Int),
             node_type := "clause" } : IdMapRow))).filter
          (fun r => decide (r.node_type = "clause")) =
          (uniqueClauses a n).enum.map (fun p =>
            { n1904_id := p.2, tr_id := 1000000 + (p.1 : Int),
              node_type := "clause" }) := by
        rw [List.filter_eq_self]
        intro r hr
        rw [List.mem_map] at hr
        obtain ⟨x, _, rfl⟩ := hr
        simp
      rw [h1, h2, h3, List.nil_append, List.append_nil]
    rw [hfil]
    have hk2 : k < ((uniqueClauses a n).enum.map (fun p =>
        ({ n1904_id := p.2, tr_id := 1000000 + (p.1 : Int),
           node_type := "clause" } : IdMapRow))).length := by
      rw [List.length_map, List.enum_length]
      exact hk
    rw [List.getD_eq_getElem?_getD, List.getElem?_eq_getElem hk2]
    rw [List.getElem_map]
    rw [List.getElem_enum]
    rw [List.getD_eq_getElem?_getD,
      List.getElem?_eq_getElem hk]
    rfl
  · intro a n k hk
    have hfil : (build_id_translation a n).filter
        (fun r => decide (r.node_type = "phrase")) =
        (uniquePhrases a n).enum.map (fun p =>
          { n1904_id := p.2, tr_id := 2000000 + (p.1 : Int),
            node_type := "phrase" }) := by
      unfold build_id_translation
      rw [List.filter_append, List.filter_append]
      have h1 : (a.map (fun x =>
          ({ n1904_id := x.n1904_node_id, tr_id := x.tr_word_id,
             node_type := "word" } : IdMapRow))).filter
          (fun r => decide (r.node_type = "phrase")) = [] := by
        rw [List.filter_eq_nil_iff]
        intro r hr
        rw [List.mem_map] at hr
        obtain ⟨x, _, rfl⟩ := hr
        simp
      have h2 : ((uniqueClauses a n).enum.map (fun p =>
          ({ n1904_id := p.2, tr_id := 1000000 + (p.1 : Int),
             node_type := "clause" } : IdMapRow))).filter
          (fun r => decide (r.node_type = "phrase")) = [] := by
        rw [List.filter_eq_nil_iff]
        intro r hr
        rw [List.mem_map] at hr
        obtain ⟨x, _, rfl⟩ := hr
        simp
      have h3 : ((uniquePhrases a n).enum.map (fun p =>
          ({ n1904_id := p.2, tr_id := 2000000 + (p.1 : Int),
             node_type := "phrase" } : IdMapRow))).filter
          (fun r => decide (r.node_type = "phrase")) =
          (uniquePhrases a n).enum.map (fun p =>
            { n1904_id := p.2, tr_id := 2000000 + (p.1 : Int),
              node_type := "phrase" }) := by
        rw [List.filter_eq_self]
        intro r hr
        rw [List.mem_map] at hr
        obtain ⟨x, _, rfl⟩ := hr
        simp
      rw [h1, h2, h3]
      simp
    rw [hfil]
    have hk2 : k < ((uniquePhrases a n).enum.map (fun p =>
        ({ n1904_id := p.2, tr_id := 2000000 + (p.1 : Int),
           node_type := "phrase" } : IdMapRow))).length := by
      rw [List.length_map, List.enum_length]
      exact hk
    rw [List.getD_eq_getElem?_getD, List.getElem?_eq_getElem hk2]
    rw [List.getElem_map]
    rw [List.getElem_enum]
    rw [List.getD_eq_getElem?_getD,
      List.getElem?_eq_getElem hk]
    rfl

/-- Witness for C4 at a concrete input: one aligned word whose node carries
clause 7; the first (k = 0) clause row receives assigned id 1000000. -/
theorem claim_C4_determinism_witness :
    (0 < (uniqueClauses [⟨1, 50⟩] [⟨50, some 7, some 8⟩]).length) ∧
    ((build_id_translation [⟨1, 50⟩] [⟨50, some 7, some 8⟩]).filter
        (fun r => decide (r.node_type = "clause"))).getD 0 default =
      { n1904_id := (uniqueClauses [⟨1, 50⟩] [⟨50, some 7, some 8⟩]).getD 0 0,
        tr_id := 1000000 + ((0 : Nat) : Int), node_type := "clause" } :=
  ⟨by decide,
    claim_C4_determinism.2.2.1 [⟨1, 50⟩] [⟨50, some 7, some 8⟩] 0 (by decide)⟩

/-! ### Proofs: the Gap Span Grouper -/

theorem getLastD_eq_or_mem : ∀ (l : List β) (d : β), l.getLastD d = d ∨ l.getLastD d ∈ l := by
  intro l
  induction l with
  | nil => intro d; exact Or.inl rfl
  | cons x xs ih =>
    intro d
    rw [List.getLastD_cons]
    rcases ih x with h | h
    · exact Or.inr (by rw [h]; exact List.mem_cons_self _ _)
    · exact Or.inr (List.mem_cons_of_mem _ h)

theorem getLastD_map (f : β → γ) : ∀ (l : List β) (d : β),
    (l.map f).getLastD (f d) = f (l.getLastD d) := by
  intro l
  induction l with
  | nil => intro d; rfl
  | cons x xs ih =>
    intro d
    rw [List.map_cons, List.getLastD_cons, List.getLastD_cons]
    exact ih x

theorem getD_length_eq_getLastD : ∀ (cs : List β) (h d : β),
    (h :: cs).getD cs.length d = cs.getLastD h := by
  intro cs
  induction cs with
  | nil => intro h d; rfl
  | cons c cs' ih =>
    intro h d
    rw [List.getLastD_cons]
    exact ih c d

theorem foldl_extendSpan_fields :
    ∀ (rest : List GapRow) (cs : CurSpan),
      (rest.foldl extendSpan cs).book = cs.book ∧
      (rest.foldl extendSpan cs).chapter = cs.chapter ∧
      (rest.foldl extendSpan cs).verse = cs.verse ∧
      (rest.foldl extendSpan cs).start_word_rank = cs.start_word_rank ∧
      (rest.foldl extendSpan cs).gap_type = cs.gap_type ∧
      (rest.foldl extendSpan cs).word_count = cs.word_count + rest.length ∧
      (rest.foldl extendSpan cs).word_ids = cs.word_ids ++ rest.map (fun x => x.word_id) ∧
      (rest.foldl extendSpan cs).words = cs.words ++ rest.map (fun x => x.word) ∧
      (rest.foldl extendSpan cs).end_word_rank =
        (rest.map (fun x => x.word_rank)).getLastD cs.end_word_rank := by
  intro rest
  induction rest with
  | nil =>
    intro cs
    simp
  | cons g rest ih =>
    intro cs
    simp only [List.foldl_cons, List.map_cons, List.getLastD_cons, List.length_cons]
    have h := ih (extendSpan cs g)
    refine ⟨h.1, h.2.1, h.2.2.1, h.2.2.2.1, h.2.2.2.2.1, ?_, ?_, ?_, ?_⟩
    · have := h.2.2.2.2.2.1
      rw [this]
      show cs.word_count + 1 + rest.length = cs.word_count + (rest.length + 1)
      omega
    · have := h.2.2.2.2.2.2.1
      rw [this]
      show cs.word_ids ++ [g.word_id] ++ _ = _
      rw [List.append_assoc]
      rfl
    · have := h.2.2.2.2.2.2.2.1
      rw [this]
      show cs.words ++ [g.word] ++ _ = _
      rw [List.append_assoc]
      rfl
    · exact h.2.2.2.2.2.2.2.2

theorem groupLoop_chunks :
    ∀ (rows : List GapRow) (g : GapRow) (c : List GapRow) (spans : List CurSpan),
      (∀ x ∈ c, x.book = g.book ∧ x.chapter = g.chapter ∧ x.verse = g.verse) →
      groupLoop rows (some (c.foldl extendSpan (newSpan g))) spans =
        spans ++ (specChunksAux (g :: c) (c.getLastD g) rows).map chunkSpan := by
  intro rows
  induction rows with
  | nil =>
    intro g c spans _
    rfl
  | cons row rest ih =>
    intro g c spans hc
    have hbcv : (c.getLastD g).book = g.book ∧ (c.getLastD g).chapter = g.chapter ∧
        (c.getLastD g).verse = g.verse := by
      rcases getLastD_eq_or_mem c g with h | h
      · rw [h]
        exact ⟨rfl, rfl, rfl⟩
      · exact hc _ h
    have hfields := foldl_extendSpan_fields c (newSpan g)
    have e1 : (c.foldl extendSpan (newSpan g)).book = g.book := hfields.1
    have e2 : (c.foldl extendSpan (newSpan g)).chapter = g.chapter := hfields.2.1
    have e3 : (c.foldl extendSpan (newSpan g)).verse = g.verse := hfields.2.2.1
    have e4 : (c.foldl extendSpan (newSpan g)).end_word_rank = (c.getLastD g).word_rank := by
      have h9 := hfields.2.2.2.2.2.2.2.2
      rw [h9]
      exact getLastD_map (fun x => x.word_rank) c g
    have hcond : continuesSpan (c.foldl extendSpan (newSpan g)) row ↔
        chunkRel (c.getLastD g) row := by
      unfold continuesSpan chunkRel
      constructor
      · rintro ⟨h1, h2, h3, h4⟩
        refine ⟨hbcv.1.trans (e1.symm.trans h1), hbcv.2.1.trans (e2.symm.trans h2),
          hbcv.2.2.trans (e3.symm.trans h3), by omega⟩
      · rintro ⟨h1, h2, h3, h4⟩
        refine ⟨e1.trans (hbcv.1.symm.trans h1), e2.trans (hbcv.2.1.symm.trans h2),
          e3.trans (hbcv.2.2.symm.trans h3), by omega⟩
    by_cases hcont : continuesSpan (c.foldl extendSpan (newSpan g)) row
    · have hrel : chunkRel (c.getLastD g) row := hcond.mp hcont
      simp only [groupLoop, if_pos hcont]
      have hfold : extendSpan (c.foldl extendSpan (newSpan g)) row =
          (c ++ [row]).foldl extendSpan (newSpan g) := by
        rw [List.foldl_append]
        rfl
      rw [hfold]
      have hc2 : ∀ x ∈ c ++ [row],
          x.book = g.book ∧ x.chapter = g.chapter ∧ x.verse = g.verse := by
        intro x hx
        rcases List.mem_append.mp hx with hx | hx
        · exact hc x hx
        · rcases List.mem_singleton.mp hx with rfl
          exact ⟨hrel.1.symm.trans hbcv.1, hrel.2.1.symm.trans hbcv.2.1,
            hrel.2.2.1.symm.trans hbcv.2.2⟩
      rw [ih g (c ++ [row]) spans hc2]
      congr 1
      rw [show (g :: (c ++ [row])) = (g :: c) ++ [row] by rfl]
      rw [List.getLastD_concat]
      conv_rhs => rw [specChunksAux, if_pos hrel]
    · have hrel : ¬ chunkRel (c.getLastD g) row := fun h => hcont (hcond.mpr h)
      simp only [groupLoop, if_neg hcont]
      have hstart : newSpan row = List.foldl extendSpan (newSpan row) [] := rfl
      rw [hstart, ih row [] (spans ++ [c.foldl extendSpan (newSpan g)])
        (fun x hx => absurd hx (List.not_mem_nil x))]
      conv_rhs => rw [specChunksAux, if_neg hrel]
      rw [List.map_cons, List.append_assoc, List.singleton_append]
      rfl

theorem specChunksAux_ne_nil :
    ∀ (rows cur : List GapRow) (last : GapRow), cur ≠ [] →
      ∀ ch ∈ specChunksAux cur last rows, ch ≠ [] := by
  intro rows
  induction rows with
  | nil =>
    intro cur last hne ch hch
    rcases List.mem_singleton.mp hch with rfl
    exact hne
  | cons r rest ih =>
    intro cur last hne ch hch
    simp only [specChunksAux] at hch
    by_cases hrel : chunkRel last r
    · rw [if_pos hrel] at hch
      exact ih (cur ++ [r]) r (by simp) ch hch
    · rw [if_neg hrel] at hch
      rcases List.mem_cons.mp hch with rfl | hch
      · exact hne
      · exact ih [r] r (by simp) ch hch

theorem specChunksAux_subset :
    ∀ (rows cur : List GapRow) (last : GapRow) (ch : List GapRow),
      ch ∈ specChunksAux cur last rows → ∀ x ∈ ch, x ∈ cur ∨ x ∈ rows := by
  intro rows
  induction rows with
  | nil =>
    intro cur last ch hch x hx
    rcases List.mem_singleton.mp hch with rfl
    exact Or.inl hx
  | cons r rest ih =>
    intro cur last ch hch x hx
    simp only [specChunksAux] at hch
    by_cases hrel : chunkRel last r
    · rw [if_pos hrel] at hch
      rcases ih (cur ++ [r]) r ch hch x hx with h | h
      · rcases List.mem_append.mp h with h | h
        · exact Or.inl h
        · rcases List.mem_singleton.mp h with rfl
          exact Or.inr (List.mem_cons_self _ _)
      · exact Or.inr (List.mem_cons_of_mem _ h)
    · rw [if_neg hrel] at hch
      rcases List.mem_cons.mp hch with rfl | hch
      · exact Or.inl hx
      · rcases ih [r] r ch hch x hx with h | h
        · rcases List.mem_singleton.mp h with rfl
          exact Or.inr (List.mem_cons_self _ _)
        · exact Or.inr (List.mem_cons_of_mem _ h)

theorem specChunksAux_chain :
    ∀ (rows cur : List GapRow) (last : GapRow),
      List.Chain' chunkRel cur → cur.getLast? = some last →
      ∀ ch ∈ specChunksAux cur last rows, List.Chain' chunkRel ch := by
  intro rows
  induction rows with
  | nil =>
    intro cur last hchain _ ch hch
    rcases List.mem_singleton.mp hch with rfl
    exact hchain
  | cons r rest ih =>
    intro cur last hchain hlast ch hch
    simp only [specChunksAux] at hch
    by_cases hrel : chunkRel last r
    · rw [if_pos hrel] at hch
      refine ih (cur ++ [r]) r ?_ ?_ ch hch
      · rw [List.chain'_append]
        refine ⟨hchain, List.chain'_singleton _, ?_⟩
        intro x hx y hy
        rw [hlast, Option.mem_some_iff] at hx
        rw [List.head?_cons, Option.mem_some_iff] at hy
        subst hx
        subst hy
        exact hrel
      · rw [List.getLast?_concat]
    · rw [if_neg hrel] at hch
      rcases List.mem_cons.mp hch with rfl | hch
      · exact hchain
      · exact ih [r] r (List.chain'_singleton _) rfl ch hch

theorem chain_consec :
    ∀ (cs : List GapRow) (g : GapRow),
      List.Chain' chunkRel (g :: cs) →
      ∀ t, t < cs.length + 1 →
        ((g :: cs).getD t default).word_rank = g.word_rank + (t : Int) ∧
        ((g :: cs).getD t default).book = g.book ∧
        ((g :: cs).getD t default).chapter = g.chapter ∧
        ((g :: cs).getD t default).verse = g.verse := by
  intro cs
  induction cs with
  | nil =>
    intro g _ t ht
    simp only [List.length_nil] at ht
    obtain rfl : t = 0 := by omega
    refine ⟨by simp, rfl, rfl, rfl⟩
  | cons c cs' ih =>
    intro g hch t ht
    rw [List.chain'_cons] at hch
    obtain ⟨hrel, hch'⟩ := hch
    rcases t with _ | t'
    · refine ⟨by simp, rfl, rfl, rfl⟩
    · rw [List.getD_cons_succ]
      have hih := ih c hch' t' (by
        simp only [List.length_cons] at ht
        omega)
      obtain ⟨hr, hb, hcc, hv⟩ := hih
      obtain ⟨hrb, hrc, hrv, hrr⟩ := hrel
      refine ⟨?_, ?_, ?_, ?_⟩
      · rw [hr]
        push_cast
        omega
      · rw [hb]; exact hrb.symm
      · rw [hcc]; exact hrc.symm
      · rw [hv]; exact hrv.symm

theorem group_eq_spec_chunks (gaps_df : List GapRow) (tr_df : List WordRec) :
    group_gaps_into_spans gaps_df tr_df =
      (specChunks (gaps_df.insertionSort gapLE)).enum.map
        (fun p => specSpanOf p.1 p.2) := by
  show (groupLoop (gaps_df.insertionSort gapLE) none []).enum.map spanRecOf = _
  generalize gaps_df.insertionSort gapLE = sorted
  rcases sorted with _ | ⟨g, rest⟩
  · rfl
  · have h1 : groupLoop (g :: rest) none [] =
        (specChunksAux [g] g rest).map chunkSpan := by
      show groupLoop rest (some (List.foldl extendSpan (newSpan g) [])) [] = _
      rw [groupLoop_chunks rest g [] [] (fun x hx => absurd hx (List.not_mem_nil x))]
      rw [List.nil_append]
      rfl
    rw [h1]
    rw [show specChunks (g :: rest) = specChunksAux [g] g rest from rfl]
    rw [List.enum_map, List.map_map]
    apply List.map_congr_left
    intro p hp
    obtain ⟨i, ch⟩ := p
    have hmem : ch ∈ specChunksAux [g] g rest := by
      rw [(List.mem_enumFrom hp).2.2]
      exact List.getElem_mem _
    have hne : ch ≠ [] := specChunksAux_ne_nil rest [g] g (by simp) ch hmem
    obtain ⟨h0, cs, rfl⟩ := List.exists_cons_of_ne_nil hne
    show spanRecOf (i, chunkSpan (h0 :: cs)) = specSpanOf i (h0 :: cs)
    have hf := foldl_extendSpan_fields cs (newSpan h0)
    unfold spanRecOf specSpanOf chunkSpan
    simp only [SpanRec.mk.injEq]
    refine ⟨trivial, hf.1, hf.2.1, hf.2.2.1, hf.2.2.2.1, ?_, ?_, ?_, ?_, hf.2.2.2.2.1, ?_⟩
    · rw [hf.2.2.2.2.2.2.2.2]
      exact getLastD_map (fun x => x.word_rank) cs h0
    · rw [hf.2.2.2.2.2.1]
      simp only [List.length_cons]
      show 1 + cs.length = cs.length + 1
      omega
    · rw [hf.2.2.2.2.2.2.2.1]
      rfl
    · rw [hf.2.2.2.2.2.2.1]
      rfl
    · have hgt : (List.foldl extendSpan (newSpan h0) cs).gap_type = h0.gap_type :=
        hf.2.2.2.2.1
      have hwc : (List.foldl extendSpan (newSpan h0) cs).word_count = cs.length + 1 := by
        rw [hf.2.2.2.2.2.1]
        show 1 + cs.length = cs.length + 1
        omega
      unfold categorize_span
      rw [hgt, hwc]
      simp only [List.length_cons]

/-- C7: span categorization — every span produced by the gap span grouper
with gap kind tr_only_verse is categorized full_verse regardless of size;
otherwise a 1-word span is single_word, a 2-5-word span is short_phrase and
a 6-or-more-word span is long_phrase; and a source-only verse of 9
contiguous words yields one span of category full_verse with word_count 9. -/
theorem claim_C7_span_categorization :
    (∀ (gaps_df : List GapRow) (tr_df : List WordRec),
      ∀ s ∈ group_gaps_into_spans gaps_df tr_df,
        (s.gap_type = "tr_only_verse" → s.category = "full_verse") ∧
        (s.gap_type ≠ "tr_only_verse" →
          (s.word_count = 1 → s.category = "single_word") ∧
          (2 ≤ s.word_count ∧ s.word_count ≤ 5 → s.category = "short_phrase") ∧
          (6 ≤ s.word_count → s.category = "long_phrase"))) ∧
    group_gaps_into_spans
      [⟨1, "Mat", 1, 1, 1, "x", "tr_only_verse"⟩, ⟨2, "Mat", 1, 1, 2, "x", "tr_only_verse"⟩,
       ⟨3, "Mat", 1, 1, 3, "x", "tr_only_verse"⟩, ⟨4, "Mat", 1, 1, 4, "x", "tr_only_verse"⟩,
       ⟨5, "Mat", 1, 1, 5, "x", "tr_only_verse"⟩, ⟨6, "Mat", 1, 1, 6, "x", "tr_only_verse"⟩,
       ⟨7, "Mat", 1, 1, 7, "x", "tr_only_verse"⟩, ⟨8, "Mat", 1, 1, 8, "x", "tr_only_verse"⟩,
       ⟨9, "Mat", 1, 1, 9, "x", "tr_only_verse"⟩] [] =
      [{ span_id := 1, book := "Mat", chapter := 1, verse := 1, start_word_rank := 1,
         end_word_rank := 9, word_count := 9, text := "x x x x x x x x x",
         word_ids := [1, 2, 3, 4, 5, 6, 7, 8, 9], gap_type := "tr_only_verse",
         category := "full_verse" }] := by
  constructor
  · intro gaps_df tr_df s hs
    have e : group_gaps_into_spans gaps_df tr_df =
        (groupLoop (gaps_df.insertionSort gapLE) none []).enum.map spanRecOf := rfl
    rw [e, List.mem_map] at hs
    obtain ⟨⟨i, cs⟩, _, rfl⟩ := hs
    constructor
    · intro hgt
      have hgt2 : cs.gap_type = "tr_only_verse" := hgt
      show categorize_span cs = "full_verse"
      unfold categorize_span
      rw [if_pos hgt2]
    · intro hgt
      have hgt2 : ¬ cs.gap_type = "tr_only_verse" := hgt
      refine ⟨?_, ?_, ?_⟩
      · intro h1
        have h1b : cs.word_count = 1 := h1
        show categorize_span cs = "single_word"
        unfold categorize_span
        rw [if_neg hgt2, if_pos h1b]
      · intro h2
        have h2b : 2 ≤ cs.word_count ∧ cs.word_count ≤ 5 := h2
        show categorize_span cs = "short_phrase"
        unfold categorize_span
        rw [if_neg hgt2, if_neg (show ¬ cs.word_count = 1 by omega), if_pos h2b.2]
      · intro h3
        have h3b : 6 ≤ cs.word_count := h3
        show categorize_span cs = "long_phrase"
        unfold categorize_span
        rw [if_neg hgt2, if_neg (show ¬ cs.word_count = 1 by omega),
          if_neg (show ¬ cs.word_count ≤ 5 by omega)]
  · decide

/-- Witness for C7 at a concrete input: a lone unmatched gap word becomes a
span whose category the theorem determines to be single_word. -/
theorem claim_C7_span_categorization_witness :
    ({ span_id := 1, book := "Mat", chapter := 1, verse := 1, start_word_rank := 5,
       end_word_rank := 5, word_count := 1, text := "x", word_ids := [7],
       gap_type := "unmatched", category := "single_word" } : SpanRec).category =
      "single_word" :=
  ((claim_C7_span_categorization.1 [⟨7, "Mat", 1, 1, 5, "x", "unmatched"⟩] []
      { span_id := 1, book := "Mat", chapter := 1, verse := 1, start_word_rank := 5,
        end_word_rank := 5, word_count := 1, text := "x", word_ids := [7],
        gap_type := "unmatched", category := "single_word" }
      (by decide)).2 (by decide)).1 rfl

/-- C8: span contiguity — group_gaps_into_spans equals the spec-side
grouping of the sorted gaps into maximal runs (a gap joins the current span
exactly when it shares (book, chapter, verse) and its rank is the last rank
plus one), and every produced span covers exactly the consecutive ranks
from start_word_rank to end_word_rank: word_count = end - start + 1, one
stored word_id per rank, and the t-th member is a gap row of the input with
the span's (book, chapter, verse) and rank start + t. -/
theorem claim_C8_span_contiguity :
    (∀ (gaps_df : List GapRow) (tr_df : List WordRec),
      group_gaps_into_spans gaps_df tr_df =
        (specChunks (gaps_df.insertionSort gapLE)).enum.map
          (fun p => specSpanOf p.1 p.2)) ∧
    (∀ (gaps_df : List GapRow) (tr_df : List WordRec),
      ∀ s ∈ group_gaps_into_spans gaps_df tr_df,
        s.end_word_rank - s.start_word_rank + 1 = (s.word_count : Int) ∧
        s.word_ids.length = s.word_count ∧
        (∀ t, t < s.word_count →
          ∃ g0 ∈ gaps_df, g0.word_id = s.word_ids.getD t 0 ∧ g0.book = s.book ∧
            g0.chapter = s.chapter ∧ g0.verse = s.verse ∧
            g0.word_rank = s.start_word_rank + (t : Int))) := by
  refine ⟨group_eq_spec_chunks, ?_⟩
  intro gaps_df tr_df s hs
  rw [group_eq_spec_chunks, List.mem_map] at hs
  obtain ⟨⟨i, ch⟩, hp, rfl⟩ := hs
  have hmem0 : ch ∈ specChunks (gaps_df.insertionSort gapLE) := by
    rw [(List.mem_enumFrom hp).2.2]
    exact List.getElem_mem _
  rcases hsort : gaps_df.insertionSort gapLE with _ | ⟨g0, r0⟩
  · rw [hsort] at hmem0
    exact absurd hmem0 (by simp [specChunks])
  · rw [hsort] at hmem0
    have hchain : List.Chain' chunkRel ch :=
      specChunksAux_chain r0 [g0] g0 (List.chain'_singleton _) rfl ch hmem0
    have hsubset := specChunksAux_subset r0 [g0] g0 ch hmem0
    have hne : ch ≠ [] := specChunksAux_ne_nil r0 [g0] g0 (by simp) ch hmem0
    obtain ⟨h0, cs, rfl⟩ := List.exists_cons_of_ne_nil hne
    have hlast := chain_consec cs h0 hchain cs.length (by omega)
    rw [getD_length_eq_getLastD] at hlast
    refine ⟨?_, ?_, ?_⟩
    · show (cs.getLastD h0).word_rank - h0.word_rank + 1 = (((h0 :: cs).length : Nat) : Int)
      rw [hlast.1]
      simp only [List.length_cons]
      push_cast
      omega
    · show ((h0 :: cs).map (fun x => x.word_id)).length = (h0 :: cs).length
      simp
    · intro t ht
      replace ht : t < (h0 :: cs).length := ht
      simp only [List.length_cons] at ht
      have hcc := chain_consec cs h0 hchain t ht
      have hb : t < (h0 :: cs).length := by
        simp only [List.length_cons]
        omega
      have hgetd : (h0 :: cs).getD t default = (h0 :: cs)[t] := by
        rw [List.getD_eq_getElem?_getD, List.getElem?_eq_getElem hb,
          Option.getD_some]
      refine ⟨(h0 :: cs).getD t default, ?_, ?_, hcc.2.1, hcc.2.2.1, hcc.2.2.2, hcc.1⟩
      · have hx : (h0 :: cs).getD t default ∈ (h0 :: cs) := by
          rw [hgetd]
          exact List.getElem_mem _
        have hx2 : (h0 :: cs).getD t default ∈ gaps_df.insertionSort gapLE := by
          rw [hsort]
          rcases hsubset _ hx with h | h
          · rcases List.mem_singleton.mp h with rfl
            exact List.mem_cons_self _ _
          · exact List.mem_cons_of_mem _ h
        exact (List.perm_insertionSort gapLE gaps_df).subset hx2
      · show ((h0 :: cs).getD t default).word_id =
          ((h0 :: cs).map (fun x => x.word_id)).getD t 0
        rw [hgetd, List.getD_eq_getElem?_getD, List.getElem?_map,
          List.getElem?_eq_getElem hb]
        rfl

/-- Witness for C8 at a concrete input: the single span built from one
unmatched gap word satisfies the contiguity conclusions. -/
theorem claim_C8_span_contiguity_witness :
    ({ span_id := 1, book := "Mat", chapter := 1, verse := 2, start_word_rank := 5,
       end_word_rank := 5, word_count := 1, text := "y", word_ids := [7],
       gap_type := "unmatched", category := "single_word" } : SpanRec).end_word_rank -
        ({ span_id := 1, book := "Mat", chapter := 1, verse := 2, start_word_rank := 5,
           end_word_rank := 5, word_count := 1, text := "y", word_ids := [7],
           gap_type := "unmatched", category := "single_word" } : SpanRec).start_word_rank +
        1 =
      (({ span_id := 1, book := "Mat", chapter := 1, verse := 2, start_word_rank := 5,
          end_word_rank := 5, word_count := 1, text := "y", word_ids := [7],
          gap_type := "unmatched", category := "single_word" } : SpanRec).word_count : Int) :=
  (claim_C8_span_contiguity.2 [⟨7, "Mat", 1, 2, 5, "y", "unmatched"⟩] []
    { span_id := 1, book := "Mat", chapter := 1, verse := 2, start_word_rank := 5,
      end_word_rank := 5, word_count := 1, text := "y", word_ids := [7],
      gap_type := "unmatched", category := "single_word" } (by decide)).1

/-! ### Claim theorems for the Transplant Applier -/

theorem getD_mem_of_lt (l : List β) (k : Nat) (d : β) (hk : k < l.length) :
    l.getD k d ∈ l := by
  rw [List.getD_eq_getElem?_getD, List.getElem?_eq_getElem hk, Option.getD_some]
  exact List.getElem_mem hk

theorem getD_map_of_lt (f : β → γ) (l : List β) (k : Nat) (d : γ) (d2 : β)
    (hk : k < l.length) : (l.map f).getD k d = f (l.getD k d2) := by
  have hk2 : k < (l.map f).length := by rw [List.length_map]; exact hk
  rw [List.getD_eq_getElem?_getD, List.getElem?_eq_getElem hk2, Option.getD_some,
    List.getElem_map, List.getD_eq_getElem?_getD, List.getElem?_eq_getElem hk,
    Option.getD_some]

theorem lastLookup_eq_none (l : List (Int × β)) (k : Int) (h : ∀ p ∈ l, p.1 ≠ k) :
    lastLookup l k = none := by
  unfold lastLookup
  have h2 : ∀ p ∈ l.reverse, ¬ ((fun p => decide (p.1 = k)) p = true) := by
    intro p hp
    simp only [decide_eq_true_eq]
    exact h p (List.mem_reverse.mp hp)
  rw [List.find?_eq_none.mpr h2]
  rfl

theorem transplantRow_id_fields (aL : Int → Option Int) (nL : Int → Option N1904Full)
    (tL : Int → Option Int) (r : TrWord) :
    (transplantRow aL nL tL r).word_id = r.word_id ∧
    (transplantRow aL nL tL r).word = r.word ∧
    (transplantRow aL nL tL r).book = r.book ∧
    (transplantRow aL nL tL r).chapter = r.chapter ∧
    (transplantRow aL nL tL r).verse = r.verse ∧
    (transplantRow aL nL tL r).word_rank = r.word_rank := by
  unfold transplantRow
  cases h1 : aL r.word_id with
  | none =>
    simp [h1]
  | some nid =>
    simp only [h1]
    cases h2 : nL nid with
    | none => simp [h2]
    | some nw => simp [h2]

theorem transplantRow_unaligned (aL : Int → Option Int) (nL : Int → Option N1904Full)
    (tL : Int → Option Int) (r : TrWord) (h : aL r.word_id = none) :
    (transplantRow aL nL tL r).aligned = false ∧
    (transplantRow aL nL tL r).n1904_node_id = none ∧
    (transplantRow aL nL tL r).feats = initFeats r := by
  unfold transplantRow
  simp [h]

/-- C10: frame property of the transplant step — every output row keeps its
identifying columns (word_id, word, book, chapter, verse, word_rank), and a
row whose word_id has no entry in the alignment map is marked aligned =
false with a null n1904_node_id and has none of the syntax feature columns
overwritten (its feature cells equal their initialized values). -/
theorem claim_C10_transplant_frame (tr_df : List TrWord) (n1904_df : List N1904Full)
    (alignment_df : List IdAlignRow) (id_translation_df : List IdMapRow)
    (config : List (String × Val)) :
    (transplant_syn tr_df n1904_df alignment_df id_translation_df config).length =
      tr_df.length ∧
    (∀ k, k < tr_df.length →
      ((transplant_syn tr_df n1904_df alignment_df id_translation_df config).getD k
          default).word_id = (tr_df.getD k default).word_id ∧
      ((transplant_syn tr_df n1904_df alignment_df id_translation_df config).getD k
          default).word = (tr_df.getD k default).word ∧
      ((transplant_syn tr_df n1904_df alignment_df id_translation_df config).getD k
          default).book = (tr_df.getD k default).book ∧
      ((transplant_syn tr_df n1904_df alignment_df id_translation_df config).getD k
          default).chapter = (tr_df.getD k default).chapter ∧
      ((transplant_syn tr_df n1904_df alignment_df id_translation_df config).getD k
          default).verse = (tr_df.getD k default).verse ∧
      ((transplant_syn tr_df n1904_df alignment_df id_translation_df config).getD k
          default).word_rank = (tr_df.getD k default).word_rank ∧
      (¬ (tr_df.getD k default).word_id ∈ alignment_df.map (fun a => a.tr_word_id) →
        ((transplant_syn tr_df n1904_df alignment_df id_translation_df config).getD k
            default).aligned = false ∧
        ((transplant_syn tr_df n1904_df alignment_df id_translation_df config).getD k
            default).n1904_node_id = none ∧
        ((transplant_syn tr_df n1904_df alignment_df id_translation_df config).getD k
            default).feats = initFeats (tr_df.getD k default))) := by
  constructor
  · exact List.length_map _ _
  · intro k hk
    have e : (transplant_syn tr_df n1904_df alignment_df id_translation_df config).getD k
        default =
        transplantRow
          (lastLookup (alignment_df.map (fun a => (a.tr_word_id, a.n1904_node_id))))
          (lastLookup (n1904_df.map (fun m => (m.node_id, m))))
          (lastLookup (id_translation_df.map (fun x => (x.n1904_id, x.tr_id))))
          (tr_df.getD k default) :=
      getD_map_of_lt _ tr_df k default default hk
    rw [e]
    have hid := transplantRow_id_fields
      (lastLookup (alignment_df.map (fun a => (a.tr_word_id, a.n1904_node_id))))
      (lastLookup (n1904_df.map (fun m => (m.node_id, m))))
      (lastLookup (id_translation_df.map (fun x => (x.n1904_id, x.tr_id))))
      (tr_df.getD k default)
    refine ⟨hid.1, hid.2.1, hid.2.2.1, hid.2.2.2.1, hid.2.2.2.2.1, hid.2.2.2.2.2, ?_⟩
    intro hno
    apply transplantRow_unaligned
    apply lastLookup_eq_none
    intro p hp
    rw [List.mem_map] at hp
    obtain ⟨a, ha, rfl⟩ := hp
    intro hcontra
    exact hno (List.mem_map.mpr ⟨a, ha, hcontra⟩)

/-- Witness for C10 at a concrete input: a one-word table with an empty
alignment map keeps its identifying columns and is left unaligned with its
feature cells initialized. -/
theorem claim_C10_transplant_frame_witness :
    ((transplant_syn [⟨1, "w", "Mat", 1, 1, 1, []⟩] [] [] [] []).getD 0
      default).word_id = (([⟨1, "w", "Mat", 1, 1, 1, []⟩] : List TrWord).getD 0
      default).word_id ∧
    ((transplant_syn [⟨1, "w", "Mat", 1, 1, 1, []⟩] [] [] [] []).getD 0
      default).aligned = false :=
  ⟨((claim_C10_transplant_frame [⟨1, "w", "Mat", 1, 1, 1, []⟩] [] [] [] []).2 0
      (by decide)).1,
   (((claim_C10_transplant_frame [⟨1, "w", "Mat", 1, 1, 1, []⟩] [] [] [] []).2 0
      (by decide)).2.2.2.2.2.2 (by decide)).1⟩

theorem foldl_count_filter (p : Val → Bool) :
    ∀ (l : List Val) (acc : Nat),
      l.foldl (fun acc v => if p v then acc + 1 else acc) acc =
        acc + (l.filter p).length := by
  intro l
  induction l with
  | nil => intro acc; simp
  | cons v l ih =>
    intro acc
    rw [List.foldl_cons]
    by_cases hv : p v
    · rw [if_pos hv, ih]
      rw [List.filter_cons, if_pos hv]
      simp only [List.length_cons]
      omega
    · rw [if_neg hv, ih]
      rw [List.filter_cons, if_neg hv]

theorem filterMap_eq_of_map_eq (h : β → Option γ) :
    ∀ (l1 l2 : List β), l1.map h = l2.map h → l1.filterMap h = l2.filterMap h := by
  intro l1
  induction l1 with
  | nil =>
    intro l2 he
    cases l2 with
    | nil => rfl
    | cons y ys => simp at he
  | cons x xs ih =>
    intro l2 he
    cases l2 with
    | nil => simp at he
    | cons y ys =>
      simp only [List.map_cons, List.cons.injEq] at he
      obtain ⟨h1, h2⟩ := he
      rw [List.filterMap_cons, List.filterMap_cons, h1]
      cases hy : h y with
      | none => simp only; exact ih ys h2
      | some v => simp only; rw [ih ys h2]

/-- C5 as stated is false on the code: the validation of p2_06's main checks
only the parent column.  At this input the transplanted clause_id pointer
99999 resolves neither to a word_id nor to an assigned_id (the spec-side
dangling-pointer count over parent, clause_id and phrase_id is 1), yet the
code's broken-reference count is 0. -/
theorem claim_C5_counterexample :
    count_broken_refs
      (transplant_syn [⟨1, "w", "Mat", 1, 1, 1, []⟩]
        [⟨50, [("clause_id", some (.vInt 99999))]⟩] [⟨1, 50⟩] [] []) [] = 0 ∧
    specDanglingPointers
      (transplant_syn [⟨1, "w", "Mat", 1, 1, 1, []⟩]
        [⟨50, [("clause_id", some (.vInt 99999))]⟩] [⟨1, 50⟩] [] []) [] = 1 := by
  decide

/-- C5 (amended): after transplanting, the validation counts exactly the
non-null stored parent pointers (only that field) that are not 0 and
resolve neither to a known source word_id nor to a non-word assigned_id of
the ID-mapping table; the count is a function of the parent column and the
word_id column alone (clause_id / phrase_id cells cannot affect it); and
the run completes successfully (returns True) regardless of the count. -/
theorem claim_C5_validation_checks_parent_only (tr_df : List TrWord)
    (n1904_df : List N1904Full) (alignment_df : List IdAlignRow)
    (id_translation_df : List IdMapRow) (config : List (String × Val)) :
    (transplant_and_validate tr_df n1904_df alignment_df id_translation_df config).2.2 =
      true ∧
    (transplant_and_validate tr_df n1904_df alignment_df id_translation_df config).2.1 =
      (((transplant_and_validate tr_df n1904_df alignment_df id_translation_df
          config).1.filterMap
            (fun r => (assocFind r.feats "parent").getD none)).filter
        (fun p =>
          match p with
          | .vInt n =>
            decide (¬ n ∈ validIds
              (transplant_and_validate tr_df n1904_df alignment_df id_translation_df
                config).1 id_translation_df) && decide (n ≠ 0)
          | .vStr _ => true)).length ∧
    (∀ (result1 result2 : List TransRow),
      result1.map (fun r => r.word_id) = result2.map (fun r => r.word_id) →
      result1.map (fun r => (assocFind r.feats "parent").getD none) =
        result2.map (fun r => (assocFind r.feats "parent").getD none) →
      count_broken_refs result1 id_translation_df =
        count_broken_refs result2 id_translation_df) := by
  refine ⟨rfl, ?_, ?_⟩
  · show count_broken_refs
      (transplant_syn tr_df n1904_df alignment_df id_translation_df config)
      id_translation_df = _
    unfold count_broken_refs
    rw [foldl_count_filter]
    rw [Nat.zero_add]
    rfl
  · intro result1 result2 hw hp
    unfold count_broken_refs
    have hfm : result1.filterMap (fun r => (assocFind r.feats "parent").getD none) =
        result2.filterMap (fun r => (assocFind r.feats "parent").getD none) :=
      filterMap_eq_of_map_eq _ result1 result2 hp
    have hv : validIds result1 id_translation_df = validIds result2 id_translation_df := by
      unfold validIds
      rw [hw]
    rw [hfm, hv]

/-! ### Claim theorems for the Corpus Aligner's missing-book behavior -/

theorem align_verse_words_bound (nfc : String → String) (tr n : List WordRec)
    (crit : List String) (t : Float) :
    ∀ p ∈ (align_verse_words nfc tr n crit t).1, p.1 < tr.length ∧ p.2 < n.length := by
  have e1 : (align_verse_words nfc tr n crit t).1 =
      (get_matching_blocks (tr.map (fun w => create_word_key nfc w crit))
        (n.map (fun w => create_word_key nfc w crit))).flatMap blkPairs := rfl
  intro p hp
  rw [e1] at hp
  have := gmb_pairs_bound _ _ p hp
  rw [List.length_map, List.length_map] at this
  exact this

theorem align_verse_words_gap_lt (nfc : String → String) (tr n : List WordRec)
    (crit : List String) (t : Float) :
    ∀ i ∈ (align_verse_words nfc tr n crit t).2.1, i < tr.length := by
  have e2 : (align_verse_words nfc tr n crit t).2.1 =
      (List.range tr.length).filter
        (fun i => decide (¬ i ∈ (align_verse_words nfc tr n crit t).1.map Prod.fst)) := rfl
  intro i hi
  rw [e2, List.mem_filter] at hi
  exact List.mem_range.mp hi.1

theorem uniqueFirstAux_nodup [DecidableEq β] :
    ∀ (l seen : List β),
      (uniqueFirstAux seen l).Nodup ∧ ∀ x ∈ uniqueFirstAux seen l, ¬ x ∈ seen := by
  intro l
  induction l with
  | nil =>
    intro seen
    exact ⟨List.nodup_nil, fun x hx => absurd hx (List.not_mem_nil x)⟩
  | cons y ys ih =>
    intro seen
    simp only [uniqueFirstAux]
    by_cases hy : y ∈ seen
    · rw [if_pos hy]
      exact ih seen
    · rw [if_neg hy]
      have h2 := ih (seen ++ [y])
      constructor
      · rw [List.nodup_cons]
        refine ⟨fun hc => ?_, h2.1⟩
        exact h2.2 y hc (List.mem_append.mpr (Or.inr (List.mem_singleton.mpr rfl)))
      · intro x hx
        rcases List.mem_cons.mp hx with rfl | hx
        · exact hy
        · intro hc
          exact h2.2 x hx (List.mem_append.mpr (Or.inl hc))

theorem uniqueFirst_nodup [DecidableEq β] (l : List β) : (uniqueFirst l).Nodup :=
  (uniqueFirstAux_nodup l []).1

theorem flatMap_single (f : β → List γ) :
    ∀ (l : List β) (b : β), l.Nodup → b ∈ l → (∀ x ∈ l, x ≠ b → f x = []) →
      l.flatMap f = f b := by
  intro l
  induction l with
  | nil => intro b _ hb; exact absurd hb (List.not_mem_nil b)
  | cons x xs ih =>
    intro b hnd hb hrest
    rw [List.nodup_cons] at hnd
    rw [List.flatMap_cons]
    rcases List.mem_cons.mp hb with rfl | hb
    · have hxs : xs.flatMap f = [] := List.flatMap_eq_nil_iff.mpr (fun y hy =>
        hrest y (List.mem_cons_of_mem _ hy) (fun hc => hnd.1 (hc ▸ hy)))
      rw [hxs, List.append_nil]
    · have hx : f x = [] := hrest x (List.mem_cons_self _ _) (fun hc => hnd.1 (hc ▸ hb))
      rw [hx, List.nil_append]
      exact ih b hnd.2 hb (fun y hy => hrest y (List.mem_cons_of_mem _ hy))

theorem processBook_missing (nfc : String → String) (crit : List String)
    (n1904_df tr_df : List WordRec) (b : Val)
    (h : n1904_df.filter (fun r => decide (rowField r "book" = normalize_book_name b)) = []) :
    processBook nfc crit n1904_df tr_df b =
      ([], (tr_df.filter (fun r => decide (rowField r "book" = b))).map
        (fun r => gapOfRow r "no_n1904_book"), none) := by
  simp only [processBook]
  rw [h]
  rfl

theorem processBookPresent_book (nfc : String → String) (crit : List String)
    (tr_book_df n1904_book_df : List WordRec) (tb b : Val)
    (hb : ∀ r ∈ tr_book_df, rowField r "book" = b) :
    (∀ a ∈ (processBookPresent nfc crit tr_book_df n1904_book_df tb).1, a.book = b) ∧
    (∀ g ∈ (processBookPresent nfc crit tr_book_df n1904_book_df tb).2.1, g.book = b) ∧
    (∃ bs, (processBookPresent nfc crit tr_book_df n1904_book_df tb).2.2 =
      some (tb, bs)) := by
  refine ⟨?_, ?_, ⟨_, rfl⟩⟩
  · intro a ha
    have e : (processBookPresent nfc crit tr_book_df n1904_book_df tb).1 =
        (uniqueFirst ((tr_book_df.map
            (fun r => (rowField r "chapter", rowField r "verse"))).filter
          (fun cv => decide (cv ∈ n1904_book_df.map
            (fun r => (rowField r "chapter", rowField r "verse")))))).flatMap
          (fun cv => (processVerse nfc crit tr_book_df n1904_book_df cv).1) := by
      show ((uniqueFirst _).map (processVerse nfc crit tr_book_df n1904_book_df)).flatMap
        (fun x => x.1) = _
      rw [List.flatMap_map]
    rw [e, List.mem_flatMap] at ha
    obtain ⟨cv, _, ha⟩ := ha
    have e2 : (processVerse nfc crit tr_book_df n1904_book_df cv).1 =
        (align_verse_words nfc
          (tr_book_df.filter
            (fun r => decide (rowField r "chapter" = cv.1 ∧ rowField r "verse" = cv.2)))
          (n1904_book_df.filter
            (fun r => decide (rowField r "chapter" = cv.1 ∧ rowField r "verse" = cv.2)))
          crit).1.map
          (alignRecOfPair
            (tr_book_df.filter
              (fun r => decide (rowField r "chapter" = cv.1 ∧ rowField r "verse" = cv.2)))
            (n1904_book_df.filter
              (fun r => decide (rowField r "chapter" = cv.1 ∧ rowField r "verse" = cv.2)))) :=
      rfl
    rw [e2, List.mem_map] at ha
    obtain ⟨p, hp, rfl⟩ := ha
    have hlt := (align_verse_words_bound nfc _ _ crit 0.95 p hp).1
    have hmem := getD_mem_of_lt _ p.1 [] hlt
    have hmem2 := (List.mem_filter.mp hmem).1
    exact hb _ hmem2
  · intro g hg
    have e : (processBookPresent nfc crit tr_book_df n1904_book_df tb).2.1 =
        (uniqueFirst ((tr_book_df.map
            (fun r => (rowField r "chapter", rowField r "verse"))).filter
          (fun cv => decide (cv ∈ n1904_book_df.map
            (fun r => (rowField r "chapter", rowField r "verse")))))).flatMap
          (fun cv => (processVerse nfc crit tr_book_df n1904_book_df cv).2) ++
        (uniqueFirst ((tr_book_df.map
            (fun r => (rowField r "chapter", rowField r "verse"))).filter
          (fun cv => decide (¬ cv ∈ n1904_book_df.map
            (fun r => (rowField r "chapter", rowField r "verse")))))).flatMap
          (fun cv => (tr_book_df.filter
            (fun r => decide (rowField r "chapter" = cv.1 ∧ rowField r "verse" = cv.2))).map
            (fun r => gapOfRow r "tr_only_verse")) := by
      show ((uniqueFirst _).map (processVerse nfc crit tr_book_df n1904_book_df)).flatMap
        (fun x => x.2) ++ _ = _
      rw [List.flatMap_map]
    rw [e, List.mem_append] at hg
    rcases hg with hg | hg
    · rw [List.mem_flatMap] at hg
      obtain ⟨cv, _, hg⟩ := hg
      have e2 : (processVerse nfc crit tr_book_df n1904_book_df cv).2 =
          (align_verse_words nfc
            (tr_book_df.filter
              (fun r => decide (rowField r "chapter" = cv.1 ∧ rowField r "verse" = cv.2)))
            (n1904_book_df.filter
              (fun r => decide (rowField r "chapter" = cv.1 ∧ rowField r "verse" = cv.2)))
            crit).2.1.map
            (fun i => gapOfRow
              ((tr_book_df.filter
                (fun r => decide (rowField r "chapter" = cv.1 ∧ rowField r "verse" = cv.2))).getD
                i []) "unmatched") := rfl
      rw [e2, List.mem_map] at hg
      obtain ⟨i, hi, rfl⟩ := hg
      have hlt := align_verse_words_gap_lt nfc _ _ crit 0.95 i hi
      have hmem := getD_mem_of_lt _ i [] hlt
      have hmem2 := (List.mem_filter.mp hmem).1
      exact hb _ hmem2
    · rw [List.mem_flatMap] at hg
      obtain ⟨cv, _, hg⟩ := hg
      rw [List.mem_map] at hg
      obtain ⟨r, hr, rfl⟩ := hg
      exact hb _ (List.mem_filter.mp hr).1

theorem processBook_book (nfc : String → String) (crit : List String)
    (n1904_df tr_df : List WordRec) (b : Val) :
    (∀ a ∈ (processBook nfc crit n1904_df tr_df b).1, a.book = b) ∧
    (∀ g ∈ (processBook nfc crit n1904_df tr_df b).2.1, g.book = b) ∧
    (∀ x ∈ (processBook nfc crit n1904_df tr_df b).2.2.toList, x.1 = b) := by
  have hb : ∀ r ∈ tr_df.filter (fun r => decide (rowField r "book" = b)),
      rowField r "book" = b :=
    fun r hr => of_decide_eq_true (List.mem_filter.mp hr).2
  simp only [processBook]
  by_cases hlen : (n1904_df.filter
      (fun r => decide (rowField r "book" = normalize_book_name b))).length = 0
  · rw [if_pos hlen]
    refine ⟨fun a ha => absurd ha (List.not_mem_nil a), ?_, ?_⟩
    · intro g hg
      rw [List.mem_map] at hg
      obtain ⟨r, hr, rfl⟩ := hg
      exact hb r hr
    · intro x hx
      exact absurd hx (List.not_mem_nil x)
  · rw [if_neg hlen]
    have h := processBookPresent_book nfc crit
      (tr_df.filter (fun r => decide (rowField r "book" = b)))
      (n1904_df.filter (fun r => decide (rowField r "book" = normalize_book_name b)))
      b b hb
    refine ⟨h.1, h.2.1, ?_⟩
    obtain ⟨bs, hbs⟩ := h.2.2
    rw [hbs]
    intro x hx
    rcases List.mem_singleton.mp hx with rfl
    rfl

/-- C6 as stated is false on the code: for a source book whose mapped
reference book has no data, the `continue` in run_full_alignment skips the
book_stats assignment, so no per-book statistics (in particular no 0%
alignment rate) are reported for that book.  At this concrete input the
book "XYZ" has one word and no reference data: the gap record is emitted
but book_stats is empty. -/
theorem claim_C6_counterexample :
    (run_full_alignment id
      [[("book", .vStr "XYZ"), ("word_id", .vInt 1), ("chapter", .vInt 1),
        ("verse", .vInt 1), ("word_rank", .vInt 1), ("word", .vStr "w")]]
      [] ["word"]).2.1 =
      [⟨.vInt 1, .vStr "XYZ", .vInt 1, .vInt 1, .vInt 1, .vStr "w", "no_n1904_book"⟩] ∧
    (run_full_alignment id
      [[("book", .vStr "XYZ"), ("word_id", .vInt 1), ("chapter", .vInt 1),
        ("verse", .vInt 1), ("word_rank", .vInt 1), ("word", .vStr "w")]]
      [] ["word"]).2.2.book_stats = [] := by
  constructor
  · rfl
  · rfl

/-- C6 (amended): for every source book whose mapped reference book has no
data in the reference corpus, the corpus aligner emits one Gap record of
gap_type "no_n1904_book" per word of that book (and no other gap records
for it), emits no alignment pairs for it, and the per-book statistics
contain no entry for that book (so no alignment rate, not a 0% one, is
reported). -/
theorem claim_C6_missing_book (nfc : String → String)
    (tr_df n1904_df : List WordRec) (match_criteria : List String) (b : Val)
    (hb : b ∈ uniqueFirst (tr_df.map (fun r => rowField r "book")))
    (hmiss : n1904_df.filter
      (fun r => decide (rowField r "book" = normalize_book_name b)) = []) :
    (run_full_alignment nfc tr_df n1904_df match_criteria).2.1.filter
        (fun g => decide (g.book = b)) =
      (tr_df.filter (fun r => decide (rowField r "book" = b))).map
        (fun r => gapOfRow r "no_n1904_book") ∧
    (run_full_alignment nfc tr_df n1904_df match_criteria).1.filter
        (fun a => decide (a.book = b)) = [] ∧
    (run_full_alignment nfc tr_df n1904_df match_criteria).2.2.book_stats.find?
        (fun p => decide (p.1 = b)) = none := by
  have hnodup := uniqueFirst_nodup (tr_df.map (fun r => rowField r "book"))
  have hmB := processBook_missing nfc match_criteria n1904_df tr_df b hmiss
  have e_pairs : (run_full_alignment nfc tr_df n1904_df match_criteria).1 =
      (uniqueFirst (tr_df.map (fun r => rowField r "book"))).flatMap
        (fun b2 => (processBook nfc match_criteria n1904_df tr_df b2).1) := by
    show ((uniqueFirst _).map (processBook nfc match_criteria n1904_df tr_df)).flatMap
      (fun x => x.1) = _
    rw [List.flatMap_map]
  have e_gaps : (run_full_alignment nfc tr_df n1904_df match_criteria).2.1 =
      (uniqueFirst (tr_df.map (fun r => rowField r "book"))).flatMap
        (fun b2 => (processBook nfc match_criteria n1904_df tr_df b2).2.1) := by
    show ((uniqueFirst _).map (processBook nfc match_criteria n1904_df tr_df)).flatMap
      (fun x => x.2.1) = _
    rw [List.flatMap_map]
  have e_stats : (run_full_alignment nfc tr_df n1904_df match_criteria).2.2.book_stats =
      (uniqueFirst (tr_df.map (fun r => rowField r "book"))).flatMap
        (fun b2 => (processBook nfc match_criteria n1904_df tr_df b2).2.2.toList) := by
    show ((uniqueFirst _).map (processBook nfc match_criteria n1904_df tr_df)).filterMap
      (fun x => x.2.2) = _
    rw [List.filterMap_map]
    rw [List.filterMap_eq_flatMap_toList]
    rfl
  refine ⟨?_, ?_, ?_⟩
  · rw [e_gaps, List.filter_flatMap]
    rw [flatMap_single _ _ b hnodup hb ?_]
    · rw [hmB]
      apply List.filter_eq_self.mpr
      intro g hg
      rw [List.mem_map] at hg
      obtain ⟨r, hr, rfl⟩ := hg
      apply decide_eq_true
      show rowField r "book" = b
      exact of_decide_eq_true (List.mem_filter.mp hr).2
    · intro b2 _ hne
      apply List.filter_eq_nil_iff.mpr
      intro g hg
      have := (processBook_book nfc match_criteria n1904_df tr_df b2).2.1 g hg
      simp only [decide_eq_true_eq]
      rw [this]
      exact fun hc => hne hc
  · rw [e_pairs, List.filter_flatMap]
    apply List.flatMap_eq_nil_iff.mpr
    intro b2 hb2
    by_cases hne : b2 = b
    · subst hne
      rw [hmB]
      rfl
    · apply List.filter_eq_nil_iff.mpr
      intro a ha
      have := (processBook_book nfc match_criteria n1904_df tr_df b2).1 a ha
      simp only [decide_eq_true_eq]
      rw [this]
      exact fun hc => hne hc
  · rw [e_stats]
    apply List.find?_eq_none.mpr
    intro x hx
    rw [List.mem_flatMap] at hx
    obtain ⟨b2, hb2, hx⟩ := hx
    by_cases hne : b2 = b
    · subst hne
      rw [hmB] at hx
      exact absurd hx (List.not_mem_nil x)
    · have := (processBook_book nfc match_criteria n1904_df tr_df b2).2.2 x hx
      simp only [decide_eq_true_eq]
      rw [this]
      exact fun hc => hne hc

/-- Witness for C6 at the concrete counterexample input: book "XYZ" is a
source book with no reference data, and the theorem yields that book_stats
has no entry for it. -/
theorem claim_C6_missing_book_witness :
    (run_full_alignment id
      [[("book", .vStr "XYZ"), ("word_id", .vInt 1), ("chapter", .vInt 1),
        ("verse", .vInt 1), ("word_rank", .vInt 1), ("word", .vStr "w")]]
      [] ["word"]).2.2.book_stats.find?
        (fun p => decide (p.1 = Val.vStr "XYZ")) = none :=
  (claim_C6_missing_book id
    [[("book", .vStr "XYZ"), ("word_id", .vInt 1), ("chapter", .vInt 1),
      ("verse", .vInt 1), ("word_rank", .vInt 1), ("word", .vStr "w")]]
    [] ["word"] (.vStr "XYZ") (by decide) (by decide)).2.2

end TrTextFabric
